import Mathlib

/-
  Verification of the line-oriented document pipeline of the Anki Helper
  plugin (src/main.ts): glob compilation and scope gating, YAML front-matter
  location, deck-header insertion, heading normalization with backlinks,
  and list tidying.

  Lines are modelled as lists of characters (`Line := List Char`); a document
  is a list of lines.  Every JavaScript string operation used by the source
  is mirrored by an executable Lean function on character lists.
-/

namespace AnkiHelper

abbrev Line := List Char

/-- Characters matched by JavaScript's regex class `\s` and trimmed by
`String.prototype.trim` (WhiteSpace plus LineTerminator). -/
def isJsWs (c : Char) : Bool :=
  c = ' ' || c = '\t' || c = '\n' || c.toNat = 11 || c.toNat = 12 || c = '\r' ||
  c.toNat = 0xA0 || c.toNat = 0x1680 || (0x2000 ≤ c.toNat && c.toNat ≤ 0x200A) ||
  c.toNat = 0x2028 || c.toNat = 0x2029 || c.toNat = 0x202F || c.toNat = 0x205F ||
  c.toNat = 0x3000 || c.toNat = 0xFEFF

/-- JavaScript `String.prototype.trim`. -/
def jsTrim (l : Line) : Line :=
  ((l.dropWhile isJsWs).reverse.dropWhile isJsWs).reverse

/-- JavaScript LineTerminator characters: the characters NOT matched by the
regex metacharacter `.` (without the `s` flag). -/
def isLineTerm (c : Char) : Bool :=
  c = '\n' || c = '\r' || c.toNat = 0x2028 || c.toNat = 0x2029

/-- A character matched by the regex `.`. -/
def dotChar (c : Char) : Bool := !(isLineTerm c)

/-! ## PathMatcher: `globToRegExp` (src/main.ts lines 332-337)

    const escaped = pattern.replace(/[.+^${}()|[\]\\]/g, "\\$&");
    const withPlaceholders = escaped.replace(/\*\*/g, "§§");
    const single = withPlaceholders.replace(/\*/g, "[^/]*");
    return new RegExp("^" + single.replace(/§§/g, ".*") + "$");

The four `replace` passes are mirrored literally as rewrites on character
lists, and the resulting regular-expression source is then interpreted by a
small matcher for the regex fragment that can actually be produced
(escaped literals, `[^/]*`, `.*`, and the `?` quantifier, which the escape
class fails to quote). -/

/-- The escape class `[.+^${}()|[\]\\]` of `globToRegExp`.
(`Char.ofNat 123` and `Char.ofNat 125` are the curly braces.) -/
def isRegexMeta (c : Char) : Bool :=
  c = '.' || c = '+' || c = '^' || c = '$' || c = Char.ofNat 123 || c = Char.ofNat 125 ||
  c = '(' || c = ')' || c = '|' || c = '[' || c = ']' || c = '\\'

/-- `pattern.replace(/[.+^${}()|[\]\\]/g, "\\$&")`. -/
def escapeRegex : List Char → List Char
  | [] => []
  | c :: cs => if isRegexMeta c then '\\' :: c :: escapeRegex cs else c :: escapeRegex cs

/-- `escaped.replace(/\*\*/g, "§§")` (left-to-right, non-overlapping). -/
def starsToPh : List Char → List Char
  | [] => []
  | [c] => [c]
  | c :: d :: cs =>
    if c = '*' && d = '*' then '§' :: '§' :: starsToPh cs
    else c :: starsToPh (d :: cs)

/-- `withPlaceholders.replace(/\*/g, "[^/]*")`. -/
def starRepl : List Char → List Char
  | [] => []
  | c :: cs =>
    if c = '*' then '[' :: '^' :: '/' :: ']' :: '*' :: starRepl cs
    else c :: starRepl cs

/-- `single.replace(/§§/g, ".*")` (left-to-right, non-overlapping). -/
def phToDotStar : List Char → List Char
  | [] => []
  | [c] => [c]
  | c :: d :: cs =>
    if c = '§' && d = '§' then '.' :: '*' :: phToDotStar cs
    else c :: phToDotStar (d :: cs)

/-- The source text of the regular expression built by `globToRegExp`,
without the surrounding `^`/`$` anchors. -/
def globRegexBody (pattern : String) : List Char :=
  phToDotStar (starRepl (starsToPh (escapeRegex pattern.data)))

/-- The full regular-expression source produced by `globToRegExp`
(anchored at both ends). -/
def globToRegExp (pattern : String) : List Char :=
  '^' :: globRegexBody pattern ++ ['$']

/-- Tokens of the regex fragment reachable from `globToRegExp`:
an escaped or plain literal character, an optional character (a literal
followed by the unescaped quantifier `?`), `.*`, and `[^/]*`. -/
inductive RTok where
  | lit (c : Char)
  | opt (c : Char)
  | anySeq
  | anyNoSlash
deriving DecidableEq, Repr

/-- Parse the regex source produced by `globRegexBody` into tokens.
A `?` with nothing to quantify is a JavaScript `SyntaxError`
(`new RegExp` throws), modelled as `none`.  A second `?` after a
quantifier is the lazy-match marker, which does not change the accepted
language. -/
def parseRegexF : Nat → List Char → Option (List RTok)
  | _, [] => some []
  | 0, _ :: _ => none -- out of fuel (never happens when the fuel bounds the length)
  | f + 1, c :: cs =>
    if c = '\\' then
      -- an escaped literal, possibly followed by `?` and a lazy `?`
      match cs with
      | [] => none -- dangling backslash: SyntaxError (unreachable from globRegexBody)
      | d :: cs1 =>
        match cs1 with
        | q :: cs2 =>
          if q = '?' then
            match cs2 with
            | q2 :: cs3 =>
              if q2 = '?' then (parseRegexF f cs3).map (RTok.opt d :: ·)
              else (parseRegexF f (q2 :: cs3)).map (RTok.opt d :: ·)
            | [] => some [RTok.opt d]
          else (parseRegexF f (q :: cs2)).map (RTok.lit d :: ·)
        | [] => some [RTok.lit d]
    else if c = '?' then none -- nothing to repeat: SyntaxError
    else if c = '[' then
      -- an unescaped `[` only arises as the replacement text `[^/]*`
      match cs with
      | b2 :: b3 :: b4 :: b5 :: cs1 =>
        if b2 = '^' && b3 = '/' && b4 = ']' && b5 = '*' then
          match cs1 with
          | q :: cs2 =>
            if q = '?' then (parseRegexF f cs2).map (RTok.anyNoSlash :: ·)
            else (parseRegexF f (q :: cs2)).map (RTok.anyNoSlash :: ·)
          | [] => some [RTok.anyNoSlash]
        else none -- unreachable: a literal `[` in the pattern is escaped
      | _ => none
    else if c = '.' then
      -- an unescaped `.` only arises in the replacement text `.*`
      match cs with
      | b2 :: cs1 =>
        if b2 = '*' then
          match cs1 with
          | q :: cs2 =>
            if q = '?' then (parseRegexF f cs2).map (RTok.anySeq :: ·)
            else (parseRegexF f (q :: cs2)).map (RTok.anySeq :: ·)
          | [] => some [RTok.anySeq]
        else none -- unreachable: a literal `.` in the pattern is escaped
      | [] => none
    else
      -- a plain character, possibly followed by `?` and a lazy `?`
      match cs with
      | q :: cs2 =>
        if q = '?' then
          match cs2 with
          | q2 :: cs3 =>
            if q2 = '?' then (parseRegexF f cs3).map (RTok.opt c :: ·)
            else (parseRegexF f (q2 :: cs3)).map (RTok.opt c :: ·)
          | [] => some [RTok.opt c]
        else (parseRegexF f (q :: cs2)).map (RTok.lit c :: ·)
      | [] => some [RTok.lit c]

/-- Parse with fuel equal to the input length (each step consumes at least
one character, so this fuel always suffices; see `parseRegexF_congr`). -/
def parseRegex (l : List Char) : Option (List RTok) :=
  parseRegexF l.length l

/-- Anchored matching of a token list against a character list; full-string
matching realizes the `^`/`$` anchors of the compiled pattern. -/
def tokMatch : List RTok → List Char → Bool
  | [], ds => ds.isEmpty
  | RTok.lit _ :: _, [] => false
  | RTok.lit c :: ts, d :: ds => c == d && tokMatch ts ds
  | RTok.opt _ :: ts, [] => tokMatch ts []
  | RTok.opt c :: ts, d :: ds => tokMatch ts (d :: ds) || (c == d && tokMatch ts ds)
  | RTok.anySeq :: ts, ds =>
      (List.range (ds.length + 1)).any
        (fun k => (ds.take k).all dotChar && tokMatch ts (ds.drop k))
  | RTok.anyNoSlash :: ts, ds =>
      (List.range (ds.length + 1)).any
        (fun k => (ds.take k).all (fun c => c != '/') && tokMatch ts (ds.drop k))

/-- The compiled matcher for one glob pattern. -/
def compileGlob (pattern : String) : Option (List RTok) :=
  parseRegex (globRegexBody pattern)

/-- `globToRegExp(pattern).test(path)`. -/
def globTest (pattern path : String) : Bool :=
  match compileGlob pattern with
  | some ts => tokMatch ts path.data
  | none => false

/-! ## ScopeGate (src/main.ts lines 407-416, 533-537) -/

/-- JavaScript `p.endsWith('/')`: the last character is a slash. -/
def endsWithSlash (p : String) : Bool :=
  p.data.getLast? == some '/'

/-- `const toGlob = (p) => p.endsWith('/') ? p + '**' : p;` -/
def toGlob (p : String) : String :=
  if endsWithSlash p then p ++ "**" else p

/-- The three run-scope modes `"all" | "include" | "exclude"`. -/
inductive RunScope where
  | all
  | inc
  | exc
deriving DecidableEq

/-- The scope-relevant part of the plugin settings. -/
structure ScopeSettings where
  runScope : RunScope
  includePaths : List String
  excludePaths : List String

/-- `isInScope`, with the pattern lists compiled as in
`updateScopePatterns` (`toGlob` then `globToRegExp`). -/
def isInScope (s : ScopeSettings) (path : String) : Bool :=
  match s.runScope with
  | RunScope.inc => s.includePaths.any (fun p => globTest (toGlob p) path)
  | RunScope.exc => !(s.excludePaths.any (fun p => globTest (toGlob p) path))
  | RunScope.all => true


/-! ## FrontMatterLocator: `findYamlEnd` (src/main.ts lines 323-329) -/

/-- The front-matter delimiter line. -/
def ymlDelim : Line := "---".data

/-- `lines.indexOf(target, start)`: first index at or after `start` whose
line equals `target`, if any. -/
def indexOfFrom (target : Line) (lines : List Line) (start : Nat) : Option Nat :=
  ((lines.drop start).findIdx? (fun l => l == target)).map (· + start)

/-- `findYamlEnd`: if line 0 is exactly `---`, the index one past the next
line exactly equal to `---`, else (or if unterminated) `0`.  (For an empty
document `lines[0]` is `undefined` in JavaScript, hence not `---`.) -/
def findYamlEnd (lines : List Line) : Nat :=
  match lines with
  | [] => 0
  | l0 :: _ =>
    if l0 = ymlDelim then
      match indexOfFrom ymlDelim lines 1 with
      | some k => k + 1
      | none => 0
    else 0

/-! ## DeckHeaderInserter: `ensureTargetDeck` (src/main.ts lines 417-434) -/

/-- The literal marker `"TARGET DECK"`. -/
def deckMarker : Line := "TARGET DECK".data

/-- JavaScript `hay.includes(needle)`: substring containment. -/
def containsSub (needle hay : Line) : Bool :=
  hay.tails.any (fun t => needle.isPrefixOf t)

/-- The literal pattern of the regex `/filename/g`. -/
def filenamePat : Line := "filename".data

/-- JavaScript GetSubstitution on the replacement string of
`replace(/filename/g, basename)`: `$$` gives `$`, `$&` the matched text
(always `filename` here), a backquote-dollar the text before the match, a
quote-dollar the text after it; anything else (including `$1`, as the
pattern has no capture groups) is copied verbatim.
`Char.ofNat 96` is the backquote, `Char.ofNat 39` the single quote. -/
def expandRepl (before after : List Char) : List Char → List Char
  | [] => []
  | c :: cs =>
    if c = '$' then
      match cs with
      | [] => [c]
      | d :: cs1 =>
        if d = '$' then '$' :: expandRepl before after cs1
        else if d = '&' then filenamePat ++ expandRepl before after cs1
        else if d = Char.ofNat 96 then before ++ expandRepl before after cs1
        else if d = Char.ofNat 39 then after ++ expandRepl before after cs1
        else c :: expandRepl before after (d :: cs1)
    else c :: expandRepl before after cs

/-- The global-replace loop of `template.replace(/filename/g, basename)`;
`pos` is the current position in the original string `orig` (needed for
the before/after parts of GetSubstitution), the fuel is bounded by the
input length (at least one character is consumed per step). -/
def replaceFilenameF (basename orig : List Char) : Nat → Nat → List Char → List Char
  | 0, _, s => s
  | _ + 1, _, [] => []
  | f + 1, pos, c :: cs =>
    if filenamePat.isPrefixOf (c :: cs) then
      expandRepl (orig.take pos) (orig.drop (pos + filenamePat.length)) basename ++
        replaceFilenameF basename orig f (pos + filenamePat.length)
          ((c :: cs).drop filenamePat.length)
    else c :: replaceFilenameF basename orig f (pos + 1) cs

/-- `this.settings.targetDeckTemplate.replace(/filename/g, file.basename)`. -/
def renderDeckTemplate (tpl basename : Line) : Line :=
  replaceFilenameF basename tpl tpl.length 0 tpl

/-- `lines.splice(i, 0, ...new)`. -/
def insertAt (i : Nat) (new : List Line) (lines : List Line) : List Line :=
  lines.take i ++ new ++ lines.drop i

/-- The insertion index of `ensureTargetDeck`: `findYamlEnd(lines)`, or —
when that is 0 — the index of the first line whose trimmed content starts
with `#`, if any. -/
def deckInsertIdx (lines : List Line) : Nat :=
  let idx0 := findYamlEnd lines
  if idx0 = 0 then
    match lines.findIdx? (fun l => (jsTrim l).head? == some '#') with
    | some fh => fh
    | none => idx0
  else idx0

/-- `ensureTargetDeck(lines, file)`, returning the new line list and the
changed flag.  When the line just before the insertion index is `---`, a
blank line is spliced in first and the index advances by one. -/
def ensureTargetDeck (tpl basename : Line) (lines : List Line) : List Line × Bool :=
  if lines.any (fun l => containsSub deckMarker l) then (lines, false)
  else
    let idx1 := deckInsertIdx lines
    let tplR := renderDeckTemplate tpl basename
    if idx1 > 0 && (lines.get? (idx1 - 1) == some ymlDelim) then
      (insertAt (idx1 + 1) [deckMarker, tplR, []] (insertAt idx1 [[]] lines), true)
    else
      (insertAt idx1 [deckMarker, tplR, []] lines, true)

/-! ## HeadingNormalizer: `rewriteHeadingsAndCollectLists`
    (src/main.ts lines 437-468) -/

/-- The characters removed from heading text by `/[`<>]+/g`
(backquote = `Char.ofNat 96`). -/
def stripChar (c : Char) : Bool := c = Char.ofNat 96 || c = '<' || c = '>'

/-- `rawHeading.replace(/[`<>]+/g, "").trim()`: replacing every run of the
three characters by the empty string removes exactly those characters. -/
def cleanHeadingText (raw : Line) : Line :=
  jsTrim (raw.filter (fun c => !stripChar c))

/-- `"#".repeat(headingLevel) + " "`. -/
def headPre (level : Nat) : Line := List.replicate level '#' ++ [' ']

/-- The template literal `[[${noteName}#${cleanHeading}]]`. -/
def mkBacklink (name clean : Line) : Line :=
  '[' :: '[' :: (name ++ '#' :: (clean ++ [']', ']']))

/-- `lines[j].trim() === ""`. -/
def isBlankT (l : Line) : Bool := jsTrim l == []

/-- `line.startsWith(hPrefix)`. -/
def isHeadingLine (level : Nat) (l : Line) : Bool := (headPre level).isPrefixOf l

/-- The test `/^\[\[.*?#.*?\]\]$/.test(t)`: `t` is `[[a#b]]` for some
sequences `a`, `b` of `.`-matchable characters; equivalently `t` starts
with `[[`, ends with `]]`, and its interior contains a `#` and consists of
`.`-matchable characters. -/
def wikiShape (t : Line) : Bool :=
  4 ≤ t.length &&
  (t.take 2 == ['[', '[']) &&
  (t.drop (t.length - 2) == [']', ']']) &&
  (let mid := (t.drop 2).take (t.length - 4)
   mid.any (fun c => c = '#') && mid.all dotChar)

/-- The backlink line starts with a bracket, so it is never itself a
heading line (the heading prefix starts with a hash, or with a space when
the level is zero). -/
theorem isHeadingLine_mkBacklink (level : Nat) (name clean : Line) :
    isHeadingLine level (mkBacklink name clean) = false := by
  cases level with
  | zero => simp [isHeadingLine, headPre, mkBacklink, List.isPrefixOf]
  | succ n => simp [isHeadingLine, headPre, mkBacklink, List.isPrefixOf, List.replicate]

/-- Splitting a list at `dropWhile` for the termination argument of the
heading loop. -/
theorem headLoop_dec_aux (p q : Line → Bool) (rest : List Line) (aj : Line)
    (rest2 : List Line) (hA : rest.dropWhile q = aj :: rest2) :
    (rest.takeWhile q).countP p + rest2.countP p + (if p aj = true then 1 else 0)
        = rest.countP p ∧
    (rest.takeWhile q).length + rest2.length + 1 = rest.length := by
  have h := congrArg (List.countP p) (List.takeWhile_append_dropWhile (p := q) (l := rest))
  have h2 := congrArg List.length (List.takeWhile_append_dropWhile (p := q) (l := rest))
  rw [List.countP_append, hA, List.countP_cons] at h
  rw [List.length_append, hA, List.length_cons] at h2
  cases hpa : p aj <;> simp [hpa] at h ⊢ <;> omega

/-- The cleaned heading text of a heading line (the text after the prefix,
cleaned). -/
def headClean (level : Nat) (l : Line) : Line :=
  cleanHeadingText (l.drop (headPre level).length)

/-- The rewritten heading line `hPrefix + cleanHeading`. -/
def headNewLine (level : Nat) (l : Line) : Line :=
  headPre level ++ headClean level l

/-- The expected backlink of a heading line. -/
def headBl (level : Nat) (name l : Line) : Line :=
  mkBacklink name (headClean level l)

/-- The scan loop of `rewriteHeadingsAndCollectLists` from the current
index on, as a rewrite of the remaining lines.  At a heading line the
text is cleaned, then the first non-blank following line is located
(`j`), and the backlink is pushed (no such line), inserted before it (not
wiki-link-shaped), overwritten onto it (shaped but different), or left
alone; the scan then continues at the next index over the mutated tail,
exactly as the `for` loop with in-place `splice`/`push` does. -/
def headLoop (level : Nat) (name : Line) : List Line → List Line × Bool
  | [] => ([], false)
  | l :: rest =>
    if isHeadingLine level l then
      match hA : rest.dropWhile isBlankT with
      | [] =>
        let out := headLoop level name (rest ++ [headBl level name l])
        (headNewLine level l :: out.1, true)
      | aj :: rest2 =>
        if wikiShape (jsTrim aj) = false then
          let out := headLoop level name
            (rest.takeWhile isBlankT ++ headBl level name l :: aj :: rest2)
          (headNewLine level l :: out.1, true)
        else if jsTrim aj ≠ headBl level name l then
          let out := headLoop level name
            (rest.takeWhile isBlankT ++ headBl level name l :: rest2)
          (headNewLine level l :: out.1, true)
        else
          let out := headLoop level name rest
          (headNewLine level l :: out.1,
            (l.drop (headPre level).length != headClean level l) || out.2)
    else
      let out := headLoop level name rest
      (l :: out.1, out.2)
termination_by l => 2 * l.countP (isHeadingLine level) + l.length
decreasing_by
  all_goals
    simp [List.countP_append, List.countP_cons, List.countP_nil, headBl,
      isHeadingLine_mkBacklink, *]
  all_goals try omega
  all_goals
    obtain ⟨h1, h2⟩ := headLoop_dec_aux (isHeadingLine level) isBlankT _ _ _ hA
  all_goals omega

/-- `rewriteHeadingsAndCollectLists`: scan from `findYamlEnd(lines)`. -/
def rewriteHeadingsAndCollectLists (level : Nat) (name : Line) (lines : List Line) :
    List Line × Bool :=
  let start := findYamlEnd lines
  let out := headLoop level name (lines.drop start)
  (lines.take start ++ out.1, out.2)

/-! ## ListTidier: `tidyLists` (src/main.ts lines 471-516) -/

/-- `/^(\s*)([-+*]|\d+\.)\s*/.test(l)`: after optional whitespace, an
unordered marker or one-or-more digits followed by a dot (the trailing
`\s*` always matches). -/
def isList (l : Line) : Bool :=
  match l.dropWhile isJsWs with
  | [] => false
  | c :: cs =>
    c = '-' || c = '+' || c = '*' ||
      (c.isDigit && ((cs.dropWhile Char.isDigit).head? == some '.'))

/-- `/^(\s*)([-+*]|\d+\.)\s*$/.test(l)`: a list line whose content after
the marker is whitespace only. -/
def isEmptyItem (l : Line) : Bool :=
  match l.dropWhile isJsWs with
  | [] => false
  | c :: cs =>
    if c = '-' || c = '+' || c = '*' then cs.all isJsWs
    else c.isDigit && ((cs.dropWhile Char.isDigit).head? == some '.') &&
      ((cs.dropWhile Char.isDigit).tail.all isJsWs)

/-- `/^\s*$/.test(l)`. -/
def isBlankLine (l : Line) : Bool := l.all isJsWs

/-- Scan for an occurrence of `-->` preceded only by `.`-matchable
characters (the `.*` of the comment regex). -/
def isHtmlCmtAux : List Char → Bool
  | [] => false
  | c :: cs => "-->".data.isPrefixOf (c :: cs) || (dotChar c && isHtmlCmtAux cs)

/-- `/^\s*<!--.*-->/.test(l)`. -/
def isHtmlCmt (l : Line) : Bool :=
  let rest := l.dropWhile isJsWs
  "<!--".data.isPrefixOf rest && isHtmlCmtAux (rest.drop 4)

/-- The inserted separator: a line holding exactly one space. -/
def spaceLine : Line := [' ']

/-- The block loop of `tidyLists`: `acc` holds (reversed) the list lines
of the block currently being collected.  When the block ends (next line
not a list line, or end of input) every empty item is removed from it,
and if the following line exists and is neither blank, a list line, nor
an HTML comment, the single-space separator is inserted after the block;
scanning resumes after that following line, exactly as the source's
`i = end` plus `i++` does (the separator and the following line are not
list lines, so the loop passes over them unchanged). -/
def tidyAux : List Line → List Line → List Line × Bool
  | acc, [] =>
    (acc.reverse.filter (fun l => !isEmptyItem l), acc.any isEmptyItem)
  | acc, x :: xs =>
    if isList x then tidyAux (x :: acc) xs
    else if acc.isEmpty then
      let out := tidyAux [] xs
      (x :: out.1, out.2)
    else
      let kept := acc.reverse.filter (fun l => !isEmptyItem l)
      let removed := acc.any isEmptyItem
      let out := tidyAux [] xs
      if !isBlankLine x && !isHtmlCmt x then
        (kept ++ spaceLine :: x :: out.1, true)
      else
        (kept ++ x :: out.1, removed || out.2)

/-- `tidyLists`: scan from `findYamlEnd(lines)`. -/
def tidyLists (lines : List Line) : List Line × Bool :=
  let start := findYamlEnd lines
  let out := tidyAux [] (lines.drop start)
  (lines.take start ++ out.1, out.2)

/-! ## The pipeline: `processFile` (src/main.ts lines 384-405) -/

/-- The per-run configuration (settings snapshot). -/
structure Config where
  headingLevel : Nat
  targetDeckTemplate : Line
  enableTargetDeck : Bool
  enableHeadingOps : Bool
  enableListTidy : Bool
  scope : ScopeSettings

/-- The three enabled components in pipeline order, with the accumulated
changed flag. -/
def runPipeline (cfg : Config) (basename : Line) (lines : List Line) :
    List Line × Bool :=
  let s1 := if cfg.enableTargetDeck then
      ensureTargetDeck cfg.targetDeckTemplate basename lines
    else (lines, false)
  let s2 := if cfg.enableHeadingOps then
      rewriteHeadingsAndCollectLists cfg.headingLevel basename s1.1
    else (s1.1, false)
  let s3 := if cfg.enableListTidy then tidyLists s2.1 else (s2.1, false)
  (s3.1, s1.2 || s2.2 || s3.2)

/-- Observable outcome of `processFile`: skipped (out of scope, a Notice is
shown and nothing runs), ran without writing, or wrote the joined text. -/
inductive FileOutcome where
  | skipped
  | notWritten (lines : List Line)
  | written (text : List Char)
deriving DecidableEq

/-- `lines.join("\n")`. -/
def joinLines (lines : List Line) : List Char := List.intercalate ['\n'] lines

/-- `processFile`: the scope gate, the pipeline, and the write-iff-changed
policy (`if (changed) await this.app.vault.modify(file, lines.join("\n"))`). -/
def processFile (cfg : Config) (path : String) (basename : Line)
    (lines : List Line) : FileOutcome :=
  if isInScope cfg.scope path = false then FileOutcome.skipped
  else
    let out := runPipeline cfg basename lines
    if out.2 then FileOutcome.written (joinLines out.1)
    else FileOutcome.notWritten out.1

/-- Modelled from the spec (§4.4): plain literal substitution of every
occurrence of `filename` by the basename ("case-sensitive literal
substitution ... multiple occurrences all substituted"), for comparison
with the implementation's `renderDeckTemplate`. -/
def replaceFilenameLiteralF (basename : Line) : Nat → List Char → List Char
  | 0, s => s
  | _ + 1, [] => []
  | f + 1, c :: cs =>
    if filenamePat.isPrefixOf (c :: cs) then
      basename ++ replaceFilenameLiteralF basename f ((c :: cs).drop filenamePat.length)
    else c :: replaceFilenameLiteralF basename f cs

/-- Modelled from the spec: the literal-substitution renderer. -/
def replaceFilenameLiteral (tpl basename : Line) : Line :=
  replaceFilenameLiteralF basename tpl.length tpl


/-- The separation property `tidyLists` establishes between a list line and
a following non-list line: the follower is blank or an HTML comment (else
the separator pass would fire again). -/
def sepR (a b : Line) : Prop :=
  isList a = true → isList b = false → isBlankLine b = true ∨ isHtmlCmt b = true

/-! ## Support lemmas: the glob compiler -/

theorem parseRegexF_congr :
    ∀ (f1 : Nat) (l : List Char) (f2 : Nat), l.length ≤ f1 → l.length ≤ f2 →
      parseRegexF f1 l = parseRegexF f2 l := by
  intro f1
  induction f1 with
  | zero =>
    intro l f2 h1 _
    have hl : l = [] := by cases l <;> simp_all
    subst hl
    cases f2 <;> rfl
  | succ g ih =>
    intro l f2 h1 h2
    cases l with
    | nil => cases f2 <;> rfl
    | cons c cs =>
      cases f2 with
      | zero => simp at h2
      | succ g2 =>
        simp only [parseRegexF]
        repeat' split
        all_goals try rfl
        all_goals (apply congrArg; apply ih <;> simp_all <;> omega)

theorem parseRegex_esc_step (c : Char) (rest : List Char) (h : rest.head? ≠ some '?') :
    parseRegex ('\\' :: c :: rest) = (parseRegex rest).map (RTok.lit c :: ·) := by
  match rest with
  | [] => rfl
  | r :: rs =>
    have hr : r ≠ '?' := by simpa using h
    show parseRegexF (rs.length + 3) ('\\' :: c :: r :: rs) = _
    conv_lhs => rw [parseRegexF.eq_def]
    simp only [hr, reduceIte, if_false]
    rw [parseRegexF_congr (rs.length + 2) (r :: rs) (r :: rs).length] <;> simp
    rfl

theorem parseRegex_plain_step (c : Char) (rest : List Char)
    (hm : isRegexMeta c = false) (hq : c ≠ '?') (h : rest.head? ≠ some '?') :
    parseRegex (c :: rest) = (parseRegex rest).map (RTok.lit c :: ·) := by
  have hb : c ≠ '\\' := by intro hc; subst hc; simp [isRegexMeta] at hm
  have hbr : c ≠ '[' := by intro hc; subst hc; simp [isRegexMeta] at hm
  have hd : c ≠ '.' := by intro hc; subst hc; simp [isRegexMeta] at hm
  match rest with
  | [] =>
    show parseRegexF 1 [c] = _
    conv_lhs => rw [parseRegexF.eq_def]
    simp only [hb, hq, hbr, hd, reduceIte, if_false]
    rfl
  | r :: rs =>
    have hr : r ≠ '?' := by simpa using h
    show parseRegexF (rs.length + 2) (c :: r :: rs) = _
    conv_lhs => rw [parseRegexF.eq_def]
    simp only [hb, hq, hbr, hd, hr, reduceIte, if_false]
    rw [parseRegexF_congr (rs.length + 1) (r :: rs) (r :: rs).length] <;> simp
    rfl

theorem mem_escapeRegex (l : List Char) (c : Char) (h : c ∈ escapeRegex l) :
    c = '\\' ∨ c ∈ l := by
  induction l with
  | nil => simp [escapeRegex] at h
  | cons d ds ih =>
    simp only [escapeRegex] at h
    by_cases hm : isRegexMeta d
    · simp [hm] at h
      rcases h with h | h | h
      · exact Or.inl h
      · exact Or.inr (by simp [h])
      · rcases ih h with h' | h'
        · exact Or.inl h'
        · exact Or.inr (List.mem_cons_of_mem _ h')
    · simp [hm] at h
      rcases h with h | h
      · exact Or.inr (by simp [h])
      · rcases ih h with h' | h'
        · exact Or.inl h'
        · exact Or.inr (List.mem_cons_of_mem _ h')

theorem escapeRegex_head (l : List Char) (h : '?' ∉ l) :
    (escapeRegex l).head? ≠ some '?' := by
  cases l with
  | nil => simp [escapeRegex]
  | cons c cs =>
    have hc : c ≠ '?' := fun hc => h (by simp [hc])
    simp only [escapeRegex]
    by_cases hm : isRegexMeta c
    · simp [hm]
    · simp [hm, hc]

theorem starsToPh_eq_self (l : List Char) (h : '*' ∉ l) : starsToPh l = l := by
  induction l with
  | nil => rfl
  | cons c cs ih =>
    cases cs with
    | nil => rfl
    | cons d ds =>
      have hc : c ≠ '*' := fun hc => h (by simp [hc])
      have : starsToPh (d :: ds) = d :: ds := ih (fun hm => h (List.mem_cons_of_mem _ hm))
      simp [starsToPh, hc, this]

theorem starRepl_eq_self (l : List Char) (h : '*' ∉ l) : starRepl l = l := by
  induction l with
  | nil => rfl
  | cons c cs ih =>
    have hc : c ≠ '*' := fun hc => h (by simp [hc])
    simp [starRepl, hc, ih (fun hm => h (List.mem_cons_of_mem _ hm))]

theorem phToDotStar_eq_self (l : List Char) (h : '§' ∉ l) : phToDotStar l = l := by
  induction l with
  | nil => rfl
  | cons c cs ih =>
    cases cs with
    | nil => rfl
    | cons d ds =>
      have hc : c ≠ '§' := fun hc => h (by simp [hc])
      have : phToDotStar (d :: ds) = d :: ds := ih (fun hm => h (List.mem_cons_of_mem _ hm))
      simp [phToDotStar, hc, this]

theorem parseRegex_escaped_lits (l : List Char) (h : '?' ∉ l) :
    parseRegex (escapeRegex l) = some (l.map RTok.lit) := by
  induction l with
  | nil => rfl
  | cons c cs ih =>
    have hc : c ≠ '?' := fun hc => h (by simp [hc])
    have hcs : '?' ∉ cs := fun hm => h (List.mem_cons_of_mem _ hm)
    have hh := escapeRegex_head cs hcs
    simp only [escapeRegex]
    by_cases hm : isRegexMeta c
    · simp only [hm, if_true]
      rw [parseRegex_esc_step c _ hh, ih hcs]
      rfl
    · rw [if_neg hm, parseRegex_plain_step c _ (by simpa using hm) hc hh, ih hcs]
      rfl

theorem compileGlob_lits (p : String)
    (h : ∀ c ∈ p.data, c ≠ '*' ∧ c ≠ '?' ∧ c ≠ '§') :
    compileGlob p = some (p.data.map RTok.lit) := by
  have hstar : '*' ∉ escapeRegex p.data := by
    intro hm
    rcases mem_escapeRegex _ _ hm with h' | h'
    · simp at h'
    · exact (h _ h').1 rfl
  have hsec : '§' ∉ escapeRegex p.data := by
    intro hm
    rcases mem_escapeRegex _ _ hm with h' | h'
    · simp at h'
    · exact (h _ h').2.2 rfl
  have hq : '?' ∉ p.data := fun hm => (h _ hm).2.1 rfl
  unfold compileGlob globRegexBody
  rw [starsToPh_eq_self _ hstar, starRepl_eq_self _ hstar, phToDotStar_eq_self _ hsec]
  exact parseRegex_escaped_lits _ hq

theorem tokMatch_lits (l ds : List Char) : tokMatch (l.map RTok.lit) ds = true ↔ ds = l := by
  induction l generalizing ds with
  | nil => cases ds <;> simp [tokMatch]
  | cons c cs ih =>
    cases ds with
    | nil => simp [tokMatch]
    | cons d ds2 =>
      simp only [List.map_cons, tokMatch, Bool.and_eq_true, beq_iff_eq, ih,
        List.cons.injEq]
      constructor
      · rintro ⟨h1, h2⟩; exact ⟨h1.symm, h2⟩
      · rintro ⟨h1, h2⟩; exact ⟨h1.symm, h2⟩

theorem tokMatch_star_aux (P : Char → Bool) (ds : List Char) :
    ((List.range (ds.length + 1)).any
      (fun k => (ds.take k).all P && (ds.drop k).isEmpty) = true) ↔ ds.all P = true := by
  constructor
  · intro h
    rcases List.any_eq_true.mp h with ⟨k, _, hkp⟩
    obtain ⟨h1, h2⟩ : (ds.take k).all P = true ∧ (ds.drop k).isEmpty = true := by
      simpa using hkp
    have hlen : ds.length ≤ k := by simpa [List.isEmpty_iff] using h2
    rwa [List.take_of_length_le hlen] at h1
  · intro h
    apply List.any_eq_true.mpr
    refine ⟨ds.length, by simp, ?_⟩
    simp [h]

theorem tokMatch_anySeq (ds : List Char) :
    (tokMatch [RTok.anySeq] ds = true) ↔ ds.all dotChar = true := by
  simp only [tokMatch]
  exact tokMatch_star_aux dotChar ds

theorem tokMatch_anyNoSlash (ds : List Char) :
    (tokMatch [RTok.anyNoSlash] ds = true) ↔ ds.all (fun c => c != '/') = true := by
  simp only [tokMatch]
  exact tokMatch_star_aux (fun c => c != '/') ds

theorem globTest_empty_iff (s : String) : globTest "" s = true ↔ s = "" := by
  simp only [globTest, show compileGlob "" = some [] from rfl, tokMatch]
  rw [List.isEmpty_iff]
  constructor
  · intro h; exact String.ext h
  · intro h; rw [h]

theorem globTest_doubleStar (s : String) (h : ∀ c ∈ s.data, dotChar c = true) :
    globTest "**" s = true := by
  simp only [globTest, show compileGlob "**" = some [RTok.anySeq] from by decide]
  exact (tokMatch_anySeq s.data).mpr (List.all_eq_true.mpr h)

theorem globTest_singleStar (s : String) :
    globTest "*" s = true ↔ s.data.all (fun c => c != '/') = true := by
  simp only [globTest, show compileGlob "*" = some [RTok.anyNoSlash] from by decide]
  exact tokMatch_anyNoSlash s.data

theorem globTest_lit_iff (p s : String)
    (h : ∀ c ∈ p.data, c ≠ '*' ∧ c ≠ '?' ∧ c ≠ '§') :
    globTest p s = true ↔ s = p := by
  simp only [globTest, compileGlob_lits p h]
  rw [tokMatch_lits]
  constructor
  · intro h2; exact String.ext h2
  · intro h2; rw [h2]

/-! ## Claims C6 and C7: the scope gate and the glob grammar -/

/-- C6: the scope-gate truth table.  `inScope` is constantly true in mode
`all`; in mode `include` it holds exactly when some include pattern
matches (so an empty include list rejects every path); in mode `exclude`
it holds exactly when no exclude pattern matches; and on the spec's
example, mode `exclude` with pattern `Archive/` rejects `Archive/x.md`
and admits `Notes/x.md`. -/
theorem isInScope_truth_table :
    (∀ (inc exc : List String) (p : String),
      isInScope ⟨RunScope.all, inc, exc⟩ p = true) ∧
    (∀ (inc exc : List String) (p : String),
      isInScope ⟨RunScope.inc, inc, exc⟩ p = true ↔
        ∃ q ∈ inc, globTest (toGlob q) p = true) ∧
    (∀ (exc : List String) (p : String), isInScope ⟨RunScope.inc, [], exc⟩ p = false) ∧
    (∀ (inc exc : List String) (p : String),
      isInScope ⟨RunScope.exc, inc, exc⟩ p = true ↔
        ∀ q ∈ exc, globTest (toGlob q) p = false) ∧
    isInScope ⟨RunScope.exc, [], ["Archive/"]⟩ "Archive/x.md" = false ∧
    isInScope ⟨RunScope.exc, [], ["Archive/"]⟩ "Notes/x.md" = true := by
  refine ⟨fun _ _ _ => rfl, ?_, fun _ _ => rfl, ?_, by decide, by decide⟩
  · intro inc exc p
    simp [isInScope, List.any_eq_true]
  · intro inc exc p
    simp [isInScope, Bool.not_eq_true', List.any_eq_false]

/-- C6 witness: the truth table instantiated at concrete scope settings
and paths. -/
theorem isInScope_truth_table_witness :
    isInScope ⟨RunScope.all, [], ["x"]⟩ "p" = true ∧
    (isInScope ⟨RunScope.inc, ["Notes/"], []⟩ "Notes/a.md" = true ↔
      ∃ q ∈ ["Notes/"], globTest (toGlob q) "Notes/a.md" = true) ∧
    isInScope ⟨RunScope.inc, [], []⟩ "p" = false ∧
    (isInScope ⟨RunScope.exc, [], ["Archive/"]⟩ "Notes/x.md" = true ↔
      ∀ q ∈ ["Archive/"], globTest (toGlob q) "Notes/x.md" = false) :=
  ⟨isInScope_truth_table.1 [] ["x"] "p",
   isInScope_truth_table.2.1 ["Notes/"] [] "Notes/a.md",
   isInScope_truth_table.2.2.1 [] "p",
   isInScope_truth_table.2.2.2.1 [] ["Archive/"] "Notes/x.md"⟩

/-- C7 counterexample: `?` is a regex metacharacter that the escape class
`[.+^${}()|[\]\\]` does not quote, so in the pattern `a?` it acts as a
zero-or-one quantifier instead of matching itself: `a?` does not match
the path `a?`, yet matches the empty path and `a`.  This refutes "every
other character of the pattern matches only itself". -/
theorem globToRegExp_question_mark :
    globTest "a?" "a?" = false ∧ globTest "a?" "" = true ∧ globTest "a?" "a" = true := by
  decide

/-- C7 (amended): the compiled matcher is anchored (matching is
whole-path); the empty pattern matches only the empty path; `**` matches
any sequence of characters (that `.` can match, i.e. excluding line
terminators) including `/`; a single `*` matches any sequence excluding
`/`; every character of the pattern other than `*`, `?` and `§` matches
only itself (`?` is left unescaped and acts as a quantifier — see the
counterexample — and `§` is the internal `**` placeholder); a pattern
ending in `/` behaves as if `**` were appended before compilation. -/
theorem globToRegExp_semantics :
    (∀ s : String, globTest "" s = true ↔ s = "") ∧
    (∀ s : String, (∀ c ∈ s.data, dotChar c = true) → globTest "**" s = true) ∧
    (∀ s : String, globTest "*" s = true ↔ s.data.all (fun c => c != '/') = true) ∧
    (∀ p s : String, (∀ c ∈ p.data, c ≠ '*' ∧ c ≠ '?' ∧ c ≠ '§') →
      (globTest p s = true ↔ s = p)) ∧
    (∀ p : String, endsWithSlash p = true →
      ∀ s : String, globTest (toGlob p) s = globTest (p ++ "**") s) := by
  refine ⟨globTest_empty_iff, globTest_doubleStar, globTest_singleStar,
    fun p s h => globTest_lit_iff p s h, ?_⟩
  intro p hp s
  unfold toGlob
  rw [if_pos hp]

/-- C7 witness: the amended semantics instantiated at concrete patterns
and paths. -/
theorem globToRegExp_semantics_witness :
    (globTest "" "" = true ↔ ("" : String) = "") ∧
    globTest "**" "Archive/x.md" = true ∧
    (globTest "*" "a/b" = true ↔ "a/b".data.all (fun c => c != '/') = true) ∧
    (globTest "Notes" "Notes" = true ↔ ("Notes" : String) = "Notes") ∧
    globTest (toGlob "Notes/") "Notes/x.md" = globTest ("Notes/" ++ "**") "Notes/x.md" :=
  ⟨globToRegExp_semantics.1 "",
   globToRegExp_semantics.2.1 "Archive/x.md" (by decide),
   globToRegExp_semantics.2.2.1 "a/b",
   globToRegExp_semantics.2.2.2.1 "Notes" "Notes" (by decide),
   globToRegExp_semantics.2.2.2.2 "Notes/" (by decide) "Notes/x.md"⟩

/-! ## Claim C9: front-matter location and frame -/

/-- C9: `findYamlEnd` returns 0 when line 0 is not `---` or when the
block is unterminated, and `k+1` when the next `---` is at index `k`;
consequently, for a document starting `---`, `title: x`, `---`, both the
heading normalizer and the list tidier scan from index 3: their output
keeps lines 0-2 verbatim and processes only the remaining lines. -/
theorem findYamlEnd_frontmatter_frame :
    (∀ lines : List Line, lines.head? ≠ some ymlDelim → findYamlEnd lines = 0) ∧
    (∀ rest : List Line, indexOfFrom ymlDelim (ymlDelim :: rest) 1 = none →
      findYamlEnd (ymlDelim :: rest) = 0) ∧
    (∀ (rest : List Line) (k : Nat), indexOfFrom ymlDelim (ymlDelim :: rest) 1 = some k →
      findYamlEnd (ymlDelim :: rest) = k + 1) ∧
    (∀ (t : Line) (rest : List Line), t ≠ ymlDelim →
      ∀ (level : Nat) (name : Line),
        findYamlEnd (ymlDelim :: t :: ymlDelim :: rest) = 3 ∧
        (rewriteHeadingsAndCollectLists level name (ymlDelim :: t :: ymlDelim :: rest)).1 =
          ymlDelim :: t :: ymlDelim :: (headLoop level name rest).1 ∧
        (tidyLists (ymlDelim :: t :: ymlDelim :: rest)).1 =
          ymlDelim :: t :: ymlDelim :: (tidyAux [] rest).1) := by
  have hfy : ∀ (t : Line) (rest : List Line), t ≠ ymlDelim →
      findYamlEnd (ymlDelim :: t :: ymlDelim :: rest) = 3 := by
    intro t rest ht
    have hbe : (t == ymlDelim) = false := by simpa using ht
    simp [findYamlEnd, indexOfFrom, List.findIdx?_cons, hbe]
  refine ⟨?_, ?_, ?_, ?_⟩
  · intro lines h
    cases lines with
    | nil => rfl
    | cons l rest =>
      have : l ≠ ymlDelim := by simpa using h
      simp [findYamlEnd, this]
  · intro rest h
    simp [findYamlEnd, h]
  · intro rest k h
    simp [findYamlEnd, h]
  · intro t rest ht level name
    refine ⟨hfy t rest ht, ?_, ?_⟩
    · simp [rewriteHeadingsAndCollectLists, hfy t rest ht]
    · simp [tidyLists, hfy t rest ht]

/-- C9 witness: the spec's three-line front matter, with heading level 4
and basename `N`. -/
theorem findYamlEnd_frontmatter_frame_witness :
    findYamlEnd ["x".data] = 0 ∧
    (findYamlEnd [ymlDelim, "title: x".data, ymlDelim] = 3 ∧
     (rewriteHeadingsAndCollectLists 4 "N".data [ymlDelim, "title: x".data, ymlDelim]).1 =
       ymlDelim :: "title: x".data :: ymlDelim :: (headLoop 4 "N".data []).1 ∧
     (tidyLists [ymlDelim, "title: x".data, ymlDelim]).1 =
       ymlDelim :: "title: x".data :: ymlDelim :: (tidyAux [] []).1) :=
  ⟨findYamlEnd_frontmatter_frame.1 ["x".data] (by decide),
   findYamlEnd_frontmatter_frame.2.2.2 "title: x".data [] (by decide) 4 "N".data⟩

/-! ## Claims C3 and C10: the list tidier -/

theorem isEmptyItem_isList (l : Line) (h : isEmptyItem l = true) : isList l = true := by
  unfold isEmptyItem at h
  unfold isList
  rcases hd : l.dropWhile isJsWs with _ | ⟨c, cs⟩
  · rw [hd] at h
    simp at h
  · rw [hd] at h
    by_cases hc : (c = '-' ∨ c = '+') ∨ c = '*'
    · rcases hc with (h1 | h1) | h1 <;> simp [h1]
    · simp [hc] at h
      simp [h.1]

theorem tidyAux_all_empty (x : Line)
    (hx1 : isList x = false) (hx2 : isBlankLine x = false) (hx3 : isHtmlCmt x = false) :
    ∀ (B acc : List Line), (∀ a ∈ acc, isEmptyItem a = true) →
      (∀ b ∈ B, isEmptyItem b = true) → acc ≠ [] ∨ B ≠ [] →
      tidyAux acc (B ++ [x]) = ([spaceLine, x], true) := by
  intro B
  induction B with
  | nil =>
    intro acc hacc _ hne
    have haccne : acc ≠ [] := by
      rcases hne with h | h
      · exact h
      · simp at h
    simp only [List.nil_append, tidyAux, hx1, Bool.false_eq_true, if_false]
    rw [if_neg (by simpa [List.isEmpty_iff] using haccne)]
    have hkept : acc.reverse.filter (fun l => !isEmptyItem l) = [] := by
      apply List.filter_eq_nil_iff.mpr
      intro a ha
      simp [hacc a (List.mem_reverse.mp ha)]
    simp [hkept, hx2, hx3, tidyAux]
  | cons b B2 ih =>
    intro acc hacc hB hne
    have hb : isEmptyItem b = true := hB b (by simp)
    have hlist : isList b = true := isEmptyItem_isList b hb
    simp only [List.cons_append, tidyAux, hlist, if_true]
    exact ih (b :: acc)
      (by intro a ha; rcases List.mem_cons.mp ha with h | h
          · subst h; exact hb
          · exact hacc a h)
      (fun q hq => hB q (List.mem_cons_of_mem _ hq))
      (Or.inl (by simp))

/-- C3 counterexample: on the claim's own example the list tidier removes
the empty item and still inserts the single-space separator line before
the following line: the result is [" ", "text"], not ["text"]. -/
theorem tidyLists_empty_block_inserts_separator :
    tidyLists ["- ".data, "text".data] = ([spaceLine, "text".data], true) ∧
    (tidyLists ["- ".data, "text".data]).1 ≠ ["text".data] := by decide

/-- C3 (amended): when every line of a list block is an empty item, the
block is removed entirely, but the separator rule still applies: if the
line that followed the block is neither blank, a list line, nor an HTML
comment, the single-space separator line is inserted in the removed
block's place (so ["- ", "text"] becomes [" ", "text"], with change
reported). -/
theorem tidyLists_empty_block_amended (B : List Line) (x : Line)
    (hB : B ≠ []) (hall : ∀ b ∈ B, isEmptyItem b = true)
    (hhead : B.head? ≠ some ymlDelim)
    (hx1 : isList x = false) (hx2 : isBlankLine x = false) (hx3 : isHtmlCmt x = false) :
    tidyLists (B ++ [x]) = ([spaceLine, x], true) := by
  have hfy : findYamlEnd (B ++ [x]) = 0 := by
    cases B with
    | nil => simp at hB
    | cons b B2 =>
      have : b ≠ ymlDelim := by simpa using hhead
      simp [findYamlEnd, this]
  simp only [tidyLists, hfy, List.drop_zero, List.take_zero, List.nil_append]
  rw [tidyAux_all_empty x hx1 hx2 hx3 B [] (by simp) hall (Or.inr hB)]

/-- C3 witness: the amended claim at the concrete document ["- ", "text"]. -/
theorem tidyLists_empty_block_witness :
    tidyLists ["- ".data, "text".data] = ([spaceLine, "text".data], true) :=
  tidyLists_empty_block_amended ["- ".data] "text".data (by decide) (by decide)
    (by decide) (by decide) (by decide) (by decide)

/-- C10: the list-line classifier accepts any line whose first
non-whitespace character is `-`, `+` or `*`, or whose first non-whitespace
characters are digits followed by a dot, with no separating whitespace
required; in particular the thematic break `---` and a line starting
`**bold` count as list lines, and such a line joins adjacent list blocks
and can draw the single-space separator after it. -/
theorem isList_accepts_bare_markers :
    (∀ l : Line, ((l.dropWhile isJsWs).head? = some '-' ∨
        (l.dropWhile isJsWs).head? = some '+' ∨
        (l.dropWhile isJsWs).head? = some '*') → isList l = true) ∧
    (∀ (l : Line) (c : Char) (cs : List Char), l.dropWhile isJsWs = c :: cs →
      c.isDigit = true → (cs.dropWhile Char.isDigit).head? = some '.' →
      isList l = true) ∧
    isList "---".data = true ∧ isList "**bold".data = true ∧
    tidyLists ["- a".data, "---".data, "text".data] =
      (["- a".data, "---".data, spaceLine, "text".data], true) := by
  refine ⟨?_, ?_, by decide, by decide, by decide⟩
  · intro l h
    rcases hd : l.dropWhile isJsWs with _ | ⟨c, cs⟩
    · simp [hd] at h
    · rw [hd] at h
      simp only [List.head?_cons, Option.some.injEq] at h
      unfold isList
      rw [hd]
      rcases h with h | h | h <;> simp [h]
  · intro l c cs hd hc hdot
    unfold isList
    rw [hd]
    simp [hc, hdot]

/-- C10 witness: the classifier at the bare markers and the document
["- a", "---", "text"]. -/
theorem isList_accepts_bare_markers_witness :
    isList "+x".data = true ∧ isList "12.3".data = true :=
  ⟨isList_accepts_bare_markers.1 "+x".data (by decide),
   isList_accepts_bare_markers.2.1 "12.3".data '1' "2.3".data (by decide) (by decide)
     (by decide)⟩

/-! ## Support lemmas: rewrite equations for the heading loop -/

theorem headLoop_nil (level : Nat) (name : Line) :
    headLoop level name [] = ([], false) := by
  simp [headLoop]

theorem headLoop_skip (level : Nat) (name l : Line) (rest : List Line)
    (h : isHeadingLine level l = false) :
    headLoop level name (l :: rest) =
      (l :: (headLoop level name rest).1, (headLoop level name rest).2) := by
  conv_lhs => rw [headLoop.eq_def]
  simp [h]

theorem headLoop_push (level : Nat) (name l : Line) (rest : List Line)
    (h : isHeadingLine level l = true)
    (hA : rest.dropWhile isBlankT = []) :
    headLoop level name (l :: rest) =
      (headNewLine level l ::
        (headLoop level name (rest ++ [headBl level name l])).1, true) := by
  conv_lhs => rw [headLoop.eq_def]
  simp only [h, reduceIte]
  split
  next => rfl
  next aj2 rest22 heq =>
    rw [hA] at heq
    exact absurd heq (by simp)

theorem headLoop_ins (level : Nat) (name l : Line) (rest : List Line)
    (aj : Line) (rest2 : List Line)
    (h : isHeadingLine level l = true)
    (hA : rest.dropWhile isBlankT = aj :: rest2)
    (hw : wikiShape (jsTrim aj) = false) :
    headLoop level name (l :: rest) =
      (headNewLine level l ::
        (headLoop level name
          (rest.takeWhile isBlankT ++ headBl level name l :: aj :: rest2)).1, true) := by
  conv_lhs => rw [headLoop.eq_def]
  simp only [h, reduceIte]
  split
  next heq => rw [hA] at heq; simp at heq
  next aj2 rest22 heq =>
    rw [hA] at heq
    injection heq with e1 e2
    subst e1; subst e2
    rw [if_pos hw]

theorem headLoop_over (level : Nat) (name l : Line) (rest : List Line)
    (aj : Line) (rest2 : List Line)
    (h : isHeadingLine level l = true)
    (hA : rest.dropWhile isBlankT = aj :: rest2)
    (hw : wikiShape (jsTrim aj) = true)
    (hne : jsTrim aj ≠ headBl level name l) :
    headLoop level name (l :: rest) =
      (headNewLine level l ::
        (headLoop level name
          (rest.takeWhile isBlankT ++ headBl level name l :: rest2)).1, true) := by
  conv_lhs => rw [headLoop.eq_def]
  simp only [h, reduceIte]
  split
  next heq => rw [hA] at heq; simp at heq
  next aj2 rest22 heq =>
    rw [hA] at heq
    injection heq with e1 e2
    subst e1; subst e2
    rw [if_neg (by simp [hw]), if_pos hne]

theorem headLoop_same (level : Nat) (name l : Line) (rest : List Line)
    (aj : Line) (rest2 : List Line)
    (h : isHeadingLine level l = true)
    (hA : rest.dropWhile isBlankT = aj :: rest2)
    (hw : wikiShape (jsTrim aj) = true)
    (heq : jsTrim aj = headBl level name l) :
    headLoop level name (l :: rest) =
      (headNewLine level l :: (headLoop level name rest).1,
        (l.drop (headPre level).length != headClean level l) ||
          (headLoop level name rest).2) := by
  conv_lhs => rw [headLoop.eq_def]
  simp only [h, reduceIte]
  split
  next heq2 => rw [hA] at heq2; simp at heq2
  next aj2 rest22 heq2 =>
    rw [hA] at heq2
    injection heq2 with e1 e2
    subst e1; subst e2
    rw [if_neg (by simp [hw]), if_neg (by simp [heq])]

theorem headLoop_no_heads (level : Nat) (name : Line) (lines : List Line)
    (h : ∀ x ∈ lines, isHeadingLine level x = false) :
    headLoop level name lines = (lines, false) := by
  induction lines with
  | nil => exact headLoop_nil level name
  | cons l rest ih =>
    rw [headLoop_skip level name l rest (h l (by simp)),
      ih (fun x hx => h x (List.mem_cons_of_mem _ hx))]

theorem heading_decomp (level : Nat) (l : Line) (h : isHeadingLine level l = true) :
    headPre level ++ l.drop (headPre level).length = l := by
  obtain ⟨t, ht⟩ := List.isPrefixOf_iff_prefix.mp h
  conv_rhs => rw [← ht]
  rw [← ht, List.drop_left]

/-! ## Claims C2 and C5: the heading normalizer -/

/-- C2 counterexample: at heading level 4, on the single input line
"#### Question with `code` and <tag>" the normalizer does NOT produce
"#### Question with  and": `/[`<>]+/g` removes only the characters
backtick, `<`, `>` themselves, keeping the inner words. -/
theorem headingCleanup_keeps_inner_text :
    (rewriteHeadingsAndCollectLists 4 "N".data
      ["#### Question with `code` and <tag>".data]).1.head? =
      some "#### Question with code and tag".data ∧
    (rewriteHeadingsAndCollectLists 4 "N".data
      ["#### Question with `code` and <tag>".data]).1.head? ≠
      some "#### Question with  and".data := by
  have h1 : findYamlEnd ["#### Question with `code` and <tag>".data] = 0 := by decide
  have key : rewriteHeadingsAndCollectLists 4 "N".data
      ["#### Question with `code` and <tag>".data] =
      (["#### Question with code and tag".data,
        "[[N#Question with code and tag]]".data], true) := by
    simp only [rewriteHeadingsAndCollectLists, h1, List.drop_zero, List.take_zero,
      List.nil_append]
    rw [headLoop_push 4 _ _ _ (by decide) (by decide)]
    simp only [List.nil_append]
    rw [headLoop_skip 4 _ _ _ (by decide)]
    rw [headLoop_nil]
    decide
  rw [key]
  exact ⟨rfl, by decide⟩

/-- C2 (amended): at heading level 4 the input line
"#### Question with `code` and <tag>" is rewritten to exactly
"#### Question with code and tag" — only the backtick and angle-bracket
characters are removed (then the result is trimmed), the enclosed words
are kept, and no internal whitespace is collapsed; the backlink for the
cleaned text is then appended. -/
theorem headingCleanup_literal_example :
    cleanHeadingText "Question with `code` and <tag>".data =
      "Question with code and tag".data ∧
    rewriteHeadingsAndCollectLists 4 "N".data
      ["#### Question with `code` and <tag>".data] =
    (["#### Question with code and tag".data,
      "[[N#Question with code and tag]]".data], true) := by
  refine ⟨by decide, ?_⟩
  have h1 : findYamlEnd ["#### Question with `code` and <tag>".data] = 0 := by decide
  simp only [rewriteHeadingsAndCollectLists, h1, List.drop_zero, List.take_zero,
    List.nil_append]
  rw [headLoop_push 4 _ _ _ (by decide) (by decide)]
  simp only [List.nil_append]
  rw [headLoop_skip 4 _ _ _ (by decide)]
  rw [headLoop_nil]
  decide

/-- C5: backlink correctness and placement for a heading line `l` whose
tail contains no further heading lines: the expected backlink is exactly
`[[name#T]]` for the cleaned text `T` (on the spec's example,
`[[Card1#What is X]]`); with `j` the first non-blank line after the
heading, the loop appends the backlink at the end when no such line
exists, inserts it immediately before `j` when line `j` trimmed is not of
the shape `[[...#...]]`, overwrites line `j` when it is of that shape but
differs from the expected backlink, and — when line `j` trimmed equals
the backlink and the heading text is already clean — leaves the document
untouched and reports no change. -/
theorem backlink_placement (level : Nat) (name l : Line) (rest : List Line)
    (hh : isHeadingLine level l = true)
    (hnone : ∀ x ∈ rest, isHeadingLine level x = false) :
    (headBl level name l =
      '[' :: '[' :: (name ++ '#' :: (headClean level l ++ [']', ']']))) ∧
    (mkBacklink "Card1".data "What is X".data = "[[Card1#What is X]]".data) ∧
    (rest.dropWhile isBlankT = [] →
      headLoop level name (l :: rest) =
        (headNewLine level l :: (rest ++ [headBl level name l]), true)) ∧
    (∀ aj rest2, rest.dropWhile isBlankT = aj :: rest2 →
      wikiShape (jsTrim aj) = false →
      headLoop level name (l :: rest) =
        (headNewLine level l ::
          (rest.takeWhile isBlankT ++ headBl level name l :: aj :: rest2), true)) ∧
    (∀ aj rest2, rest.dropWhile isBlankT = aj :: rest2 →
      wikiShape (jsTrim aj) = true → jsTrim aj ≠ headBl level name l →
      headLoop level name (l :: rest) =
        (headNewLine level l ::
          (rest.takeWhile isBlankT ++ headBl level name l :: rest2), true)) ∧
    (∀ aj rest2, rest.dropWhile isBlankT = aj :: rest2 →
      wikiShape (jsTrim aj) = true → jsTrim aj = headBl level name l →
      l.drop (headPre level).length = headClean level l →
      headLoop level name (l :: rest) = (l :: rest, false)) := by
  have hblanks : ∀ x ∈ rest.takeWhile isBlankT, isHeadingLine level x = false :=
    fun x hx => hnone x ((List.takeWhile_prefix isBlankT).sublist.subset hx)
  have hdropmem : ∀ x ∈ rest.dropWhile isBlankT, x ∈ rest :=
    fun x hx => (List.dropWhile_suffix isBlankT).sublist.subset hx
  refine ⟨rfl, by decide, ?_, ?_, ?_, ?_⟩
  · intro hA
    rw [headLoop_push level name l rest hh hA,
      headLoop_no_heads level name _ (by
        intro x hx
        rcases List.mem_append.mp hx with h | h
        · exact hnone x h
        · simp at h
          subst h
          exact isHeadingLine_mkBacklink level name _)]
  · intro aj rest2 hA hw
    rw [headLoop_ins level name l rest aj rest2 hh hA hw,
      headLoop_no_heads level name _ (by
        intro x hx
        rcases List.mem_append.mp hx with h | h
        · exact hblanks x h
        · rcases List.mem_cons.mp h with h | h
          · subst h; exact isHeadingLine_mkBacklink level name _
          · exact hnone x (hdropmem x (hA ▸ h)))]
  · intro aj rest2 hA hw hne
    rw [headLoop_over level name l rest aj rest2 hh hA hw hne,
      headLoop_no_heads level name _ (by
        intro x hx
        rcases List.mem_append.mp hx with h | h
        · exact hblanks x h
        · rcases List.mem_cons.mp h with h | h
          · subst h; exact isHeadingLine_mkBacklink level name _
          · exact hnone x (hdropmem x (hA ▸ List.mem_cons_of_mem _ h)))]
  · intro aj rest2 hA hw heq hclean
    rw [headLoop_same level name l rest aj rest2 hh hA hw heq,
      headLoop_no_heads level name rest hnone]
    have hnl : headNewLine level l = l := by
      unfold headNewLine
      rw [← hclean]
      exact heading_decomp level l hh
    simp [hnl, hclean]

/-- C5 witness: heading level 4, basename `Card1`, heading
`#### What is X` followed by a paragraph line: the backlink
`[[Card1#What is X]]` is inserted immediately before the paragraph. -/
theorem backlink_placement_witness :
    headLoop 4 "Card1".data ["#### What is X".data, "Some text".data] =
      (["#### What is X".data, "[[Card1#What is X]]".data, "Some text".data], true) := by
  have T := (backlink_placement 4 "Card1".data "#### What is X".data ["Some text".data]
      (by decide) (by decide)).2.2.2.1 "Some text".data [] (by decide) (by decide)
  rw [T]
  decide

/-! ## Claim C4: deck-header insertion -/

theorem findIdx?_lt_length {α : Type} {p : α → Bool} {l : List α} {i : Nat}
    (h : l.findIdx? p = some i) : i < l.length := by
  induction l generalizing i with
  | nil => simp [List.findIdx?] at h
  | cons a t ih =>
    rw [List.findIdx?_cons] at h
    by_cases hp : p a
    · simp [hp] at h
      simp [List.length_cons]
      omega
    · simp [hp] at h
      obtain ⟨j, hj, rfl⟩ := h
      have := ih hj
      simp
      omega

theorem findYamlEnd_le (lines : List Line) : findYamlEnd lines ≤ lines.length := by
  unfold findYamlEnd
  cases lines with
  | nil => simp
  | cons l0 rest =>
    by_cases h0 : l0 = ymlDelim
    · subst h0
      simp only [if_true]
      rcases hio : indexOfFrom ymlDelim (ymlDelim :: rest) 1 with _ | k
      · simp
      · simp only [List.length_cons]
        unfold indexOfFrom at hio
        simp only [List.drop_succ_cons, List.drop_zero] at hio
        rcases hfi : rest.findIdx? (fun l => l == ymlDelim) with _ | j
        · rw [hfi] at hio; simp at hio
        · rw [hfi] at hio
          simp at hio
          have := findIdx?_lt_length hfi
          simp
          omega
    · simp [h0]

theorem deckInsertIdx_le (lines : List Line) : deckInsertIdx lines ≤ lines.length := by
  unfold deckInsertIdx
  by_cases h0 : findYamlEnd lines = 0
  · simp only [h0, if_true]
    rcases hfi : lines.findIdx? (fun l => (jsTrim l).head? == some '#') with _ | j
    · simp
    · exact Nat.le_of_lt (findIdx?_lt_length hfi)
  · simp only [h0, if_false]
    exact findYamlEnd_le lines

theorem insertAt_insertAt (k : Nat) (lines : List Line) (hk : k ≤ lines.length)
    (ins : List Line) :
    insertAt (k + 1) ins (insertAt k [[]] lines) =
      lines.take k ++ [[]] ++ ins ++ lines.drop k := by
  have hlen : (lines.take k).length = k := by simp [List.length_take, Nat.min_eq_left hk]
  have hlen2 : (lines.take k ++ [[]]).length = k + 1 := by simp [hlen]
  unfold insertAt
  rw [List.take_append_eq_append_take, List.drop_append_eq_append_drop, hlen2,
    List.take_of_length_le (le_of_eq hlen2), List.drop_eq_nil_of_le (le_of_eq hlen2)]
  simp

theorem expandRepl_no_dollar (b a : List Char) (repl : List Char) (h : '$' ∉ repl) :
    expandRepl b a repl = repl := by
  induction repl with
  | nil => rfl
  | cons c cs ih =>
    have hc : c ≠ '$' := fun hc => h (by simp [hc])
    unfold expandRepl
    rw [if_neg hc, ih (fun hm => h (List.mem_cons_of_mem _ hm))]

theorem replaceFilenameF_literal (name orig : List Char) (h : '$' ∉ name) :
    ∀ (f : Nat) (pos : Nat) (s : List Char),
      replaceFilenameF name orig f pos s = replaceFilenameLiteralF name f s := by
  intro f
  induction f with
  | zero => intro pos s; rfl
  | succ g ih =>
    intro pos s
    cases s with
    | nil => rfl
    | cons c cs =>
      simp only [replaceFilenameF, replaceFilenameLiteralF]
      by_cases hp : filenamePat.isPrefixOf (c :: cs) = true
      · rw [if_pos hp, if_pos hp, expandRepl_no_dollar _ _ _ h, ih]
      · rw [if_neg hp, if_neg hp, ih]

/-- C4 counterexample: substitution into the deck template is not the
claimed literal replacement.  With basename `$&` (a legal filename
fragment), JavaScript's replacement-pattern semantics substitute the
matched text `filename` itself, so the template is left as
`[[Deck]]::[[filename]]` instead of the literal `[[Deck]]::[[$&]]`.
Moreover, with the basename `TARGET DECK`, after one run on the
marker-free document ["x"] TWO lines contain the marker (the marker line
and the rendered template), not exactly one. -/
theorem ensureTargetDeck_not_literal :
    renderDeckTemplate "[[Deck]]::[[filename]]".data "$&".data =
      "[[Deck]]::[[filename]]".data ∧
    replaceFilenameLiteral "[[Deck]]::[[filename]]".data "$&".data =
      "[[Deck]]::[[$&]]".data ∧
    renderDeckTemplate "[[Deck]]::[[filename]]".data "$&".data ≠
      replaceFilenameLiteral "[[Deck]]::[[filename]]".data "$&".data ∧
    ((ensureTargetDeck "[[filename]]".data "TARGET DECK".data ["x".data]).1.countP
      (fun l => containsSub deckMarker l)) = 2 := by
  decide

/-- C4 (amended): if any line contains the marker `TARGET DECK`, the
document is unchanged and `false` is returned.  Otherwise the three lines
marker / rendered template / empty line are inserted consecutively at the
computed index (preceded by one extra blank line when the line before the
index is `---`) and `true` is returned; if additionally the rendered
template does not itself contain the marker, exactly one line of the
result contains it.  The rendering substitutes every occurrence of
`filename` with JavaScript replacement semantics, which agree with
case-sensitive literal substitution whenever the basename contains no
`$`. -/
theorem ensureTargetDeck_spec :
    (∀ (tpl name : Line) (lines : List Line),
      lines.any (fun l => containsSub deckMarker l) = true →
      ensureTargetDeck tpl name lines = (lines, false)) ∧
    (∀ (tpl name : Line) (lines : List Line),
      lines.any (fun l => containsSub deckMarker l) = false →
      ∃ (k : Nat) (pre : List Line), (pre = [] ∨ pre = [[]]) ∧ k ≤ lines.length ∧
        ensureTargetDeck tpl name lines =
          (lines.take k ++ pre ++
            [deckMarker, renderDeckTemplate tpl name, []] ++ lines.drop k, true)) ∧
    (∀ (tpl name : Line) (lines : List Line),
      lines.any (fun l => containsSub deckMarker l) = false →
      containsSub deckMarker (renderDeckTemplate tpl name) = false →
      ((ensureTargetDeck tpl name lines).1.countP
        (fun l => containsSub deckMarker l)) = 1) ∧
    (∀ (tpl name : Line), '$' ∉ name →
      renderDeckTemplate tpl name = replaceFilenameLiteral tpl name) := by
  have hins : ∀ (tpl name : Line) (lines : List Line),
      lines.any (fun l => containsSub deckMarker l) = false →
      ∃ (k : Nat) (pre : List Line), (pre = [] ∨ pre = [[]]) ∧ k ≤ lines.length ∧
        ensureTargetDeck tpl name lines =
          (lines.take k ++ pre ++
            [deckMarker, renderDeckTemplate tpl name, []] ++ lines.drop k, true) := by
    intro tpl name lines h
    unfold ensureTargetDeck
    rw [if_neg (by simp [h])]
    have hk := deckInsertIdx_le lines
    by_cases hc : (deckInsertIdx lines > 0 &&
        (lines.get? (deckInsertIdx lines - 1) == some ymlDelim)) = true
    · rw [if_pos hc]
      exact ⟨deckInsertIdx lines, [[]], Or.inr rfl, hk,
        by rw [insertAt_insertAt _ _ hk]⟩
    · rw [if_neg hc]
      refine ⟨deckInsertIdx lines, [], Or.inl rfl, hk, ?_⟩
      simp [insertAt]
  refine ⟨?_, hins, ?_, ?_⟩
  · intro tpl name lines h
    unfold ensureTargetDeck
    rw [if_pos h]
  · intro tpl name lines h htpl
    obtain ⟨k, pre, hpre, hk, hout⟩ := hins tpl name lines h
    rw [hout]
    have hnot : ∀ l ∈ lines, containsSub deckMarker l = false :=
      fun l hl => Bool.eq_false_iff.mpr (List.any_eq_false.mp h l hl)
    have htake : (lines.take k).countP (fun l => containsSub deckMarker l) = 0 := by
      apply List.countP_eq_zero.mpr
      intro l hl
      simp [hnot l (List.mem_of_mem_take hl)]
    have hdrop : (lines.drop k).countP (fun l => containsSub deckMarker l) = 0 := by
      apply List.countP_eq_zero.mpr
      intro l hl
      simp [hnot l (List.mem_of_mem_drop hl)]
    have hpre0 : pre.countP (fun l => containsSub deckMarker l) = 0 := by
      rcases hpre with h' | h' <;> subst h' <;> decide
    simp [List.countP_append, htake, hdrop, hpre0, List.countP_cons, htpl,
      show containsSub deckMarker deckMarker = true from by decide,
      show containsSub deckMarker ([] : Line) = false from by decide]
  · intro tpl name h
    unfold renderDeckTemplate replaceFilenameLiteral
    exact replaceFilenameF_literal name tpl h tpl.length 0 tpl

/-- C4 witness: the amended claim at the template `[[filename]]`,
basename `Note`, and the one-line documents ["TARGET DECK extra"]
(guarded) and ["x"] (inserted). -/
theorem ensureTargetDeck_spec_witness :
    ensureTargetDeck "[[filename]]".data "Note".data ["TARGET DECK extra".data] =
      (["TARGET DECK extra".data], false) ∧
    (∃ (k : Nat) (pre : List Line), (pre = [] ∨ pre = [[]]) ∧
      k ≤ ([("x".data : Line)] : List Line).length ∧
      ensureTargetDeck "[[filename]]".data "Note".data ["x".data] =
        (List.take k ["x".data] ++ pre ++
          [deckMarker, renderDeckTemplate "[[filename]]".data "Note".data, []] ++
          List.drop k ["x".data], true)) ∧
    ((ensureTargetDeck "[[filename]]".data "Note".data ["x".data]).1.countP
      (fun l => containsSub deckMarker l)) = 1 ∧
    renderDeckTemplate "[[filename]]".data "Note".data =
      replaceFilenameLiteral "[[filename]]".data "Note".data :=
  ⟨ensureTargetDeck_spec.1 "[[filename]]".data "Note".data ["TARGET DECK extra".data]
      (by decide),
   ensureTargetDeck_spec.2.1 "[[filename]]".data "Note".data ["x".data] (by decide),
   ensureTargetDeck_spec.2.2.1 "[[filename]]".data "Note".data ["x".data] (by decide)
      (by decide),
   ensureTargetDeck_spec.2.2.2 "[[filename]]".data "Note".data (by decide)⟩

/-! ## Claim C8: the write policy of processFile -/

theorem ensureTargetDeck_no_change (tpl name : Line) (lines : List Line)
    (h : (ensureTargetDeck tpl name lines).2 = false) :
    (ensureTargetDeck tpl name lines).1 = lines := by
  simp only [ensureTargetDeck] at h ⊢
  by_cases hg : (lines.any fun l => containsSub deckMarker l) = true
  · rw [if_pos hg]
  · rw [if_neg hg] at h
    exfalso
    revert h
    split <;> simp

theorem headLoop_no_change (level : Nat) (name : Line) (lines : List Line)
    (h : (headLoop level name lines).2 = false) :
    (headLoop level name lines).1 = lines := by
  induction lines using headLoop.induct level name with
  | case1 => rw [headLoop_nil]
  | case2 l0 tail hh hA ih =>
    rw [headLoop_push level name l0 tail hh hA] at h
    simp at h
  | case3 l0 tail hh aj rest2 hA hw ih =>
    rw [headLoop_ins level name l0 tail aj rest2 hh hA hw] at h
    simp at h
  | case4 l0 tail hh aj rest2 hA hw hne ih =>
    rw [headLoop_over level name l0 tail aj rest2 hh hA
      (Bool.not_eq_false _ ▸ Bool.of_not_eq_false hw) hne] at h
    simp at h
  | case5 l0 tail hh aj rest2 hA hw hne ih =>
    have hw2 : wikiShape (jsTrim aj) = true := by
      cases hwv : wikiShape (jsTrim aj)
      · exact absurd hwv hw
      · rfl
    have heq : jsTrim aj = headBl level name l0 := by
      by_contra hx
      exact hne hx
    rw [headLoop_same level name l0 tail aj rest2 hh hA hw2 heq] at h ⊢
    simp only [Bool.or_eq_false_iff] at h
    obtain ⟨h1, h2⟩ := h
    have hcl : l0.drop (headPre level).length = headClean level l0 := by
      simpa using h1
    have hnl : headNewLine level l0 = l0 := by
      unfold headNewLine
      rw [← hcl]
      exact heading_decomp level l0 hh
    simp [hnl, ih h2]
  | case6 l0 tail hh ih =>
    have hh2 : isHeadingLine level l0 = false := by
      cases hv : isHeadingLine level l0
      · rfl
      · exact absurd hv hh
    rw [headLoop_skip level name l0 tail hh2] at h ⊢
    simp [ih h]

theorem rewriteHeadings_no_change (level : Nat) (name : Line) (lines : List Line)
    (h : (rewriteHeadingsAndCollectLists level name lines).2 = false) :
    (rewriteHeadingsAndCollectLists level name lines).1 = lines := by
  simp only [rewriteHeadingsAndCollectLists] at h ⊢
  rw [headLoop_no_change _ _ _ h]
  exact List.take_append_drop _ lines

theorem tidyAux_no_change (acc : List Line) (xs : List Line)
    (h : (tidyAux acc xs).2 = false) :
    (tidyAux acc xs).1 = acc.reverse ++ xs := by
  induction acc, xs using tidyAux.induct with
  | case1 acc =>
    simp only [tidyAux] at h ⊢
    rw [List.filter_eq_self.mpr]
    · simp
    · intro a ha
      simp [Bool.eq_false_iff.mpr (List.any_eq_false.mp h a (List.mem_reverse.mp ha))]
  | case2 acc x xs hx ih =>
    simp only [tidyAux, hx, if_true] at h ⊢
    rw [ih h]
    simp
  | case3 acc x xs hx hacc ih =>
    simp only [tidyAux, hx, Bool.false_eq_true, if_false, hacc, if_true] at h ⊢
    have hae : acc = [] := by simpa [List.isEmpty_iff] using hacc
    subst hae
    simp [ih h]
  | case4 acc x xs hx hacc hsp ih =>
    simp only [tidyAux, hx, Bool.false_eq_true, if_false, hacc, hsp, if_true] at h
    simp at h
  | case5 acc x xs hx hacc hsp ih =>
    simp only [tidyAux, hx, Bool.false_eq_true, if_false, hacc, hsp] at h ⊢
    simp only [Bool.or_eq_false_iff] at h
    obtain ⟨h1, h2⟩ := h
    rw [List.filter_eq_self.mpr, ih h2]
    · simp
    · intro a ha
      simp [Bool.eq_false_iff.mpr (List.any_eq_false.mp h1 a (List.mem_reverse.mp ha))]

theorem tidyLists_no_change (lines : List Line)
    (h : (tidyLists lines).2 = false) :
    (tidyLists lines).1 = lines := by
  simp only [tidyLists] at h ⊢
  rw [tidyAux_no_change _ _ h]
  simp [List.take_append_drop]

theorem runPipeline_no_change (cfg : Config) (name : Line) (lines : List Line)
    (h : (runPipeline cfg name lines).2 = false) :
    (runPipeline cfg name lines).1 = lines := by
  simp only [runPipeline, Bool.or_eq_false_iff] at h ⊢
  obtain ⟨⟨h1, h2⟩, h3⟩ := h
  have s1eq : (if cfg.enableTargetDeck then
      ensureTargetDeck cfg.targetDeckTemplate name lines else (lines, false)).1 = lines := by
    by_cases e1 : cfg.enableTargetDeck
    · simp only [e1, if_true] at h1 ⊢
      exact ensureTargetDeck_no_change _ _ _ h1
    · simp [e1]
  rw [s1eq] at h2 h3 ⊢
  have s2eq : (if cfg.enableHeadingOps then
      rewriteHeadingsAndCollectLists cfg.headingLevel name lines
    else (lines, false)).1 = lines := by
    by_cases e2 : cfg.enableHeadingOps
    · simp only [e2, if_true] at h2 ⊢
      exact rewriteHeadings_no_change _ _ _ h2
    · simp [e2]
  rw [s2eq] at h3 ⊢
  by_cases e3 : cfg.enableListTidy
  · simp only [e3, if_true] at h3 ⊢
    exact tidyLists_no_change _ h3
  · simp [e3]

/-- C8: write-iff-changed and skip-on-out-of-scope.  When the path is out
of scope, `processFile` signals the distinguishable skipped outcome (and
does not run the pipeline); when in scope, it writes the lines rejoined
with a newline exactly when some enabled component reported a change; and
when no enabled component reported a change, nothing is written and the
line sequence is exactly the input. -/
theorem processFile_write_policy :
    (∀ (cfg : Config) (path : String) (name : Line) (lines : List Line),
      isInScope cfg.scope path = false →
      processFile cfg path name lines = FileOutcome.skipped) ∧
    (∀ (cfg : Config) (path : String) (name : Line) (lines : List Line),
      isInScope cfg.scope path = true →
      (runPipeline cfg name lines).2 = true →
      processFile cfg path name lines =
        FileOutcome.written (joinLines (runPipeline cfg name lines).1)) ∧
    (∀ (cfg : Config) (path : String) (name : Line) (lines : List Line),
      isInScope cfg.scope path = true →
      (runPipeline cfg name lines).2 = false →
      processFile cfg path name lines = FileOutcome.notWritten lines ∧
      (runPipeline cfg name lines).1 = lines) ∧
    (∀ lines : List Line, FileOutcome.skipped ≠ FileOutcome.notWritten lines) := by
  refine ⟨?_, ?_, ?_, by intro lines h; cases h⟩
  · intro cfg path name lines h
    simp [processFile, h]
  · intro cfg path name lines h hc
    simp [processFile, h, hc]
  · intro cfg path name lines h hc
    constructor
    · simp [processFile, h, hc, runPipeline_no_change cfg name lines hc]
    · exact runPipeline_no_change cfg name lines hc

/-- C8 witness: a configuration excluding `Archive/` with heading ops
disabled; the out-of-scope file is skipped, a marker-free one-list-item
document is written, and a document that is already fixed is not. -/
theorem processFile_write_policy_witness :
    processFile ⟨4, "[[filename]]".data, true, false, true,
        ⟨RunScope.exc, [], ["Archive/"]⟩⟩ "Archive/x.md" "N".data ["x".data] =
      FileOutcome.skipped ∧
    processFile ⟨4, "[[filename]]".data, true, false, true,
        ⟨RunScope.exc, [], ["Archive/"]⟩⟩ "Notes/x.md" "N".data ["x".data] =
      FileOutcome.written (joinLines (runPipeline ⟨4, "[[filename]]".data, true, false,
        true, ⟨RunScope.exc, [], ["Archive/"]⟩⟩ "N".data ["x".data]).1) ∧
    processFile ⟨4, "[[filename]]".data, true, false, true,
        ⟨RunScope.exc, [], ["Archive/"]⟩⟩ "Notes/x.md" "N".data
        ["TARGET DECK".data] =
      FileOutcome.notWritten ["TARGET DECK".data] :=
  ⟨processFile_write_policy.1 _ "Archive/x.md" "N".data ["x".data] (by decide),
   processFile_write_policy.2.1 _ "Notes/x.md" "N".data ["x".data] (by decide) (by decide),
   (processFile_write_policy.2.2.1 _ "Notes/x.md" "N".data ["TARGET DECK".data]
     (by decide) (by decide)).1⟩

/-! ## Claim C1: pipeline idempotence -/

theorem mem_jsTrim (l : List Char) (c : Char) (h : c ∈ jsTrim l) : c ∈ l := by
  unfold jsTrim at h
  rw [List.mem_reverse] at h
  have h2 := (List.dropWhile_suffix isJsWs).sublist.subset h
  rw [List.mem_reverse] at h2
  exact (List.dropWhile_suffix isJsWs).sublist.subset h2

theorem jsTrim_eq_nil_iff (l : List Char) :
    jsTrim l = [] ↔ ∀ c ∈ l, isJsWs c = true := by
  unfold jsTrim
  constructor
  · intro h c hc
    by_contra hw
    have hw2 : isJsWs c = false := by
      cases hv : isJsWs c
      · rfl
      · exact absurd hv hw
    have h1 : l.dropWhile isJsWs ≠ [] := by
      intro hnil
      rw [List.dropWhile_eq_nil_iff] at hnil
      rw [hnil c hc] at hw2
      cases hw2
    rcases hd : l.dropWhile isJsWs with _ | ⟨d, ds⟩
    · exact h1 hd
    · have hdp : isJsWs d = false := by
        have hh := List.head?_dropWhile_not isJsWs l
        rw [hd] at hh
        simpa using hh
      rw [hd] at h
      have : (d :: ds).reverse.dropWhile isJsWs = [] := by
        rcases hx : (d :: ds).reverse.dropWhile isJsWs with _ | ⟨e, es⟩
        · rfl
        · rw [hx] at h
          simp at h
      rw [List.dropWhile_eq_nil_iff] at this
      have hdm : d ∈ (d :: ds).reverse := by simp
      rw [this d hdm] at hdp
      cases hdp
  · intro h
    rw [List.dropWhile_eq_nil_iff.mpr h]
    rfl

theorem jsTrim_cons_of_not_ws (c : Char) (x : List Char) (hc : isJsWs c = false) :
    ∃ y, jsTrim (c :: x) = c :: y := by
  unfold jsTrim
  rw [List.dropWhile_cons, hc]
  simp only [Bool.false_eq_true, if_false]
  rw [show (c :: x).reverse = x.reverse ++ [c] by simp, List.dropWhile_append]
  by_cases he : (x.reverse.dropWhile isJsWs).isEmpty = true
  · rw [if_pos he]
    rw [List.dropWhile_cons, hc]
    exact ⟨[], by simp⟩
  · rw [if_neg he]
    exact ⟨(x.reverse.dropWhile isJsWs).reverse, by simp⟩

theorem jsTrim_ends_not_ws (c d : Char) (x : List Char)
    (hc : isJsWs c = false) (hd : isJsWs d = false) :
    jsTrim (c :: (x ++ [d])) = c :: (x ++ [d]) := by
  unfold jsTrim
  rw [List.dropWhile_cons, hc]
  simp only [Bool.false_eq_true, if_false]
  rw [show (c :: (x ++ [d])).reverse = d :: (x.reverse ++ [c]) by simp,
    List.dropWhile_cons, hd]
  simp

theorem jsTrim_mkBacklink (nm cl : Line) :
    jsTrim (mkBacklink nm cl) = mkBacklink nm cl := by
  have h : mkBacklink nm cl = '[' :: (('[' :: (nm ++ '#' :: cl ++ [']'])) ++ [']']) := by
    simp [mkBacklink]
  rw [h]
  exact jsTrim_ends_not_ws '[' ']' _ (by decide) (by decide)

theorem jsTrim_head_eq (l : List Char) (h : jsTrim l ≠ []) :
    (jsTrim l).head? = (l.dropWhile isJsWs).head? := by
  unfold jsTrim at h ⊢
  set D := l.dropWhile isJsWs with hD
  set Z := D.reverse.dropWhile isJsWs with hZ
  have hzne : Z ≠ [] := by intro hz; rw [hz] at h; simp at h
  obtain ⟨pre, hpre⟩ := List.dropWhile_suffix (l := D.reverse) isJsWs
  have hDrev : pre ++ Z = D.reverse := hpre
  have h1 : Z.reverse.head? = Z.getLast? := List.head?_reverse Z
  have h2 : (pre ++ Z).getLast? = Z.getLast? := by
    rcases Z with _ | ⟨z, zs⟩
    · exact absurd rfl hzne
    · rw [List.getLast?_append_of_ne_nil]
      simp
  rw [h1, ← h2, hDrev, List.getLast?_reverse]

theorem jsTrim_head_not_ws (l : List Char) (c : Char) (y : List Char)
    (h : jsTrim l = c :: y) : isJsWs c = false := by
  have hne : jsTrim l ≠ [] := by rw [h]; simp
  have := jsTrim_head_eq l hne
  rw [h] at this
  have hmatch := List.head?_dropWhile_not isJsWs l
  rw [← this] at hmatch
  simpa using hmatch

theorem jsTrim_drop_head (l : List Char) (c : Char) (y : List Char)
    (h : jsTrim l = c :: y) : ∃ z, l.dropWhile isJsWs = c :: z := by
  have hne : jsTrim l ≠ [] := by rw [h]; simp
  have heq := jsTrim_head_eq l hne
  rw [h] at heq
  rcases hd : l.dropWhile isJsWs with _ | ⟨d, ds⟩
  · rw [hd] at heq; simp at heq
  · rw [hd] at heq
    simp at heq
    exact ⟨ds, by rw [heq]⟩

theorem jsTrim_last_not_ws (l : List Char) (c : Char) (y : List Char)
    (h : jsTrim l = c :: y) : ∃ d, (c :: y).getLast? = some d ∧ isJsWs d = false := by
  unfold jsTrim at h
  set D := l.dropWhile isJsWs with hD
  set Z := D.reverse.dropWhile isJsWs with hZ
  have hlast : (c :: y).getLast? = Z.head? := by
    rw [← h, List.getLast?_reverse]
  rcases hz : Z with _ | ⟨z, zs⟩
  · rw [hz] at h; simp at h
  · refine ⟨z, by rw [hlast, hz]; rfl, ?_⟩
    have hmatch := List.head?_dropWhile_not isJsWs D.reverse
    rw [← hZ, hz] at hmatch
    simpa using hmatch

theorem jsTrim_idem (l : List Char) : jsTrim (jsTrim l) = jsTrim l := by
  rcases h : jsTrim l with _ | ⟨c, y⟩
  · rfl
  · have hc := jsTrim_head_not_ws l c y h
    obtain ⟨d, hd1, hd2⟩ := jsTrim_last_not_ws l c y h
    rcases hy : y.reverse with _ | ⟨e, es⟩
    · have : y = [] := by simpa using congrArg List.reverse hy
      subst this
      simp at hd1
      subst hd1
      simp [jsTrim, List.dropWhile_cons, hc, hd2]
    · have hyy : y = es.reverse ++ [e] := by
        have := congrArg List.reverse hy
        simpa using this
      have hed : e = d := by
        rw [hyy] at hd1
        have : c :: (es.reverse ++ [e]) = (c :: es.reverse) ++ [e] := rfl
        rw [this, List.getLast?_concat] at hd1
        exact Option.some_inj.mp hd1
      subst hed
      rw [hyy]
      exact jsTrim_ends_not_ws c e es.reverse hc hd2

theorem heading_head (lv : Nat) (l : Line) (h1 : 1 ≤ lv)
    (h : isHeadingLine lv l = true) : ∃ t, l = '#' :: t := by
  have hd := heading_decomp lv l h
  rcases lv with _ | k
  · omega
  · have hlen : (headPre (k+1)).length = k + 2 := by simp [headPre]
    refine ⟨List.replicate k '#' ++ ' ' :: l.drop (k+2), ?_⟩
    conv_lhs => rw [← hd]
    rw [hlen]
    simp [headPre, List.replicate_succ, List.cons_append, List.append_assoc]

theorem blank_not_heading (lv : Nat) (l : Line) (h1 : 1 ≤ lv)
    (hb : isBlankT l = true) : isHeadingLine lv l = false := by
  by_contra hh
  have hh2 : isHeadingLine lv l = true := by
    cases hv : isHeadingLine lv l
    · exact absurd hv hh
    · rfl
  obtain ⟨t, ht⟩ := heading_head lv l h1 hh2
  have hb2 : jsTrim l = [] := by simpa [isBlankT] using hb
  have := (jsTrim_eq_nil_iff l).mp hb2 '#' (by rw [ht]; simp)
  simp [isJsWs] at this

theorem heading_trim_head (lv : Nat) (l : Line) (h1 : 1 ≤ lv)
    (h : isHeadingLine lv l = true) : (jsTrim l).head? = some '#' := by
  obtain ⟨t, ht⟩ := heading_head lv l h1 h
  have hne : jsTrim l ≠ [] := by
    intro hz
    have := (jsTrim_eq_nil_iff l).mp hz '#' (by rw [ht]; simp)
    simp [isJsWs] at this
  rw [jsTrim_head_eq l hne, ht, List.dropWhile_cons]
  simp [isJsWs]

theorem not_heading_of_trim_head (lv : Nat) (l : Line) (c : Char) (h1 : 1 ≤ lv)
    (hc : (jsTrim l).head? = some c) (hne : c ≠ '#') :
    isHeadingLine lv l = false := by
  cases hv : isHeadingLine lv l
  · rfl
  · have := heading_trim_head lv l h1 hv
    rw [hc] at this
    exact absurd (Option.some_inj.mp this) hne

theorem blankT_not_list (l : Line) (hb : isBlankT l = true) : isList l = false := by
  have hb2 : jsTrim l = [] := by simpa [isBlankT] using hb
  have hall := (jsTrim_eq_nil_iff l).mp hb2
  have hd : l.dropWhile isJsWs = [] := List.dropWhile_eq_nil_iff.mpr hall
  simp [isList, hd]

theorem list_head (l : Line) (h : isList l = true) :
    ∃ c cs, l.dropWhile isJsWs = c :: cs ∧
      (c = '-' ∨ c = '+' ∨ c = '*' ∨ c.isDigit = true) := by
  unfold isList at h
  rcases hd : l.dropWhile isJsWs with _ | ⟨c, cs⟩
  · rw [hd] at h; simp at h
  · rw [hd] at h
    refine ⟨c, cs, rfl, ?_⟩
    simp only [Bool.or_eq_true, decide_eq_true_eq, Bool.and_eq_true] at h
    rcases h with ((h | h) | h) | ⟨h, _⟩
    · exact Or.inl h
    · exact Or.inr (Or.inl h)
    · exact Or.inr (Or.inr (Or.inl h))
    · exact Or.inr (Or.inr (Or.inr h))

theorem list_not_heading (lv : Nat) (l : Line) (h1 : 1 ≤ lv)
    (h : isList l = true) : isHeadingLine lv l = false := by
  cases hv : isHeadingLine lv l
  · rfl
  · obtain ⟨t, ht⟩ := heading_head lv l h1 hv
    obtain ⟨c, cs, hd, hc⟩ := list_head l h
    rw [ht, List.dropWhile_cons] at hd
    have : isJsWs '#' = false := by decide
    rw [this] at hd
    simp at hd
    rcases hd with ⟨hd1, _⟩
    subst hd1
    rcases hc with h | h | h | h <;> simp_all

theorem trim_head_not_list (l : Line) (y : List Char)
    (h : jsTrim l = '[' :: y) : isList l = false := by
  obtain ⟨z, hz⟩ := jsTrim_drop_head l '[' y h
  simp [isList, hz, Char.isDigit]

theorem cmt_not_heading (lv : Nat) (l : Line) (h1 : 1 ≤ lv)
    (h : isHtmlCmt l = true) : isHeadingLine lv l = false := by
  cases hv : isHeadingLine lv l
  · rfl
  · obtain ⟨t, ht⟩ := heading_head lv l h1 hv
    unfold isHtmlCmt at h
    rw [ht, List.dropWhile_cons] at h
    have hw : isJsWs '#' = false := by decide
    rw [hw] at h
    simp [List.isPrefixOf] at h

theorem not_list_not_empty (l : Line) (h : isList l = false) :
    isEmptyItem l = false := by
  cases hv : isEmptyItem l
  · rfl
  · rw [isEmptyItem_isList l hv] at h
    cases h

theorem isHeadingLine_headNewLine (lv : Nat) (l : Line) :
    isHeadingLine lv (headNewLine lv l) = true := by
  unfold isHeadingLine headNewLine
  exact List.isPrefixOf_iff_prefix.mpr (List.prefix_append _ _)

theorem headNewLine_ne_delim (lv : Nat) (l : Line) (h1 : 1 ≤ lv) :
    headNewLine lv l ≠ ymlDelim := by
  intro h
  obtain ⟨t, ht⟩ := heading_head lv (headNewLine lv l) h1
    (isHeadingLine_headNewLine lv l)
  rw [ht] at h
  have : '#' = '-' := by
    have := congrArg List.head? h
    simpa [ymlDelim] using this
  cases this

theorem mkBacklink_ne_delim (nm cl : Line) : mkBacklink nm cl ≠ ymlDelim := by
  intro h
  have : '[' = '-' := by
    have := congrArg List.head? h
    simpa [mkBacklink, ymlDelim] using this
  cases this

theorem mem_cleanHeadingText (raw : Line) (c : Char)
    (h : c ∈ cleanHeadingText raw) : c ∈ raw := by
  unfold cleanHeadingText at h
  exact (List.mem_filter.mp (mem_jsTrim _ c h)).1

theorem cleanHeadingText_idem (raw : Line) :
    cleanHeadingText (cleanHeadingText raw) = cleanHeadingText raw := by
  have hf : (cleanHeadingText raw).filter (fun c => !stripChar c) =
      cleanHeadingText raw := by
    apply List.filter_eq_self.mpr
    intro c hc
    unfold cleanHeadingText at hc
    exact (List.mem_filter.mp (mem_jsTrim _ c hc)).2
  conv_lhs => rw [cleanHeadingText, hf]
  exact jsTrim_idem _

theorem headClean_headNewLine (lv : Nat) (nm l : Line) :
    headClean lv (headNewLine lv l) = headClean lv l := by
  unfold headClean headNewLine
  rw [List.drop_left]
  exact cleanHeadingText_idem _

theorem headNewLine_idem (lv : Nat) (nm l : Line) :
    headNewLine lv (headNewLine lv l) = headNewLine lv l := by
  conv_lhs => rw [headNewLine]
  rw [headClean_headNewLine lv nm l]
  rfl

theorem headBl_headNewLine (lv : Nat) (nm l : Line) :
    headBl lv nm (headNewLine lv l) = headBl lv nm l := by
  unfold headBl
  rw [headClean_headNewLine lv nm l]

theorem headNewLine_drop_clean (lv : Nat) (nm l : Line) :
    (headNewLine lv l).drop (headPre lv).length =
      headClean lv (headNewLine lv l) := by
  rw [headClean_headNewLine lv nm l]
  unfold headNewLine
  exact List.drop_left _ _

theorem mkBacklink_split (nm cl : Line) :
    mkBacklink nm cl = ('[' :: '[' :: (nm ++ '#' :: cl)) ++ [']', ']'] := by
  simp [mkBacklink, List.cons_append, List.append_assoc]

theorem wikiShape_wrap (mid : Line) (h5 : mid.any (fun c => c = '#') = true)
    (h6 : mid.all dotChar = true) :
    wikiShape (('[' :: '[' :: mid) ++ [']', ']']) = true := by
  have hL : (('[' :: '[' :: mid) ++ ([']', ']'] : List Char)).length = mid.length + 4 := by
    simp
  have hd1 : (('[' :: '[' :: mid) ++ ([']', ']'] : List Char)).drop (mid.length + 4 - 2) =
      [']', ']'] := by
    have h2 : mid.length + 4 - 2 = (('[' :: '[' :: mid) : List Char).length := by
      simp only [List.length_cons]
      omega
    rw [h2, List.drop_left]
  have hd2 : ((('[' :: '[' :: mid) ++ ([']', ']'] : List Char)).drop 2).take
      (mid.length + 4 - 4) = mid := by
    have hstep : (('[' :: '[' :: mid) ++ ([']', ']'] : List Char)).drop 2 =
        mid ++ [']', ']'] := by simp
    rw [hstep]
    have h4 : mid.length + 4 - 4 = mid.length := by omega
    rw [h4, List.take_left]
  unfold wikiShape
  simp only [hL, hd1, hd2]
  simp [h5, h6]

theorem wikiShape_mkBacklink (nm cl : Line) (hn : nm.all dotChar = true)
    (hc : cl.all dotChar = true) : wikiShape (mkBacklink nm cl) = true := by
  rw [mkBacklink_split]
  apply wikiShape_wrap
  · exact List.any_eq_true.mpr ⟨'#', by simp, by simp⟩
  · simp only [List.all_append, List.all_cons, Bool.and_eq_true]
    exact ⟨hn, by decide, hc⟩

theorem dot_headClean (lv : Nat) (l : Line) (h : l.all dotChar = true) :
    (headClean lv l).all dotChar = true := by
  apply List.all_eq_true.mpr
  intro c hc
  have h1 : c ∈ l := (List.drop_suffix _ _).sublist.subset (mem_cleanHeadingText _ c hc)
  exact List.all_eq_true.mp h c h1

theorem dot_headNewLine (lv : Nat) (l : Line) (h : l.all dotChar = true) :
    (headNewLine lv l).all dotChar = true := by
  unfold headNewLine headPre
  simp only [List.all_append, List.all_cons, Bool.and_eq_true]
  refine ⟨⟨?_, by decide⟩, dot_headClean lv l h⟩
  apply List.all_eq_true.mpr
  intro c hc
  rw [List.eq_of_mem_replicate hc]
  decide

theorem dot_headBl (lv : Nat) (nm l : Line) (hn : nm.all dotChar = true)
    (h : l.all dotChar = true) : (headBl lv nm l).all dotChar = true := by
  unfold headBl mkBacklink
  simp only [List.all_cons, List.all_append, Bool.and_eq_true]
  exact ⟨by decide, by decide, hn, by decide, dot_headClean lv l h, by decide⟩

theorem wikiShape_headBl (lv : Nat) (nm l : Line) (hn : nm.all dotChar = true)
    (h : l.all dotChar = true) : wikiShape (headBl lv nm l) = true :=
  wikiShape_mkBacklink nm (headClean lv l) hn (dot_headClean lv l h)

theorem dropWhile_all_cons (p : Line → Bool) (P : List Line) (x : Line) (Z : List Line)
    (hP : ∀ m ∈ P, p m = true) (hx : p x = false) :
    (P ++ x :: Z).dropWhile p = x :: Z := by
  induction P with
  | nil => simp [List.dropWhile_cons, hx]
  | cons a as ih =>
    rw [List.cons_append, List.dropWhile_cons, hP a (by simp)]
    exact ih (fun m hm => hP m (by simp [hm]))

theorem dropWhile_append_cons (p : Line → Bool) (A W : List Line) (c : Line)
    (cs : List Line) (h : A.dropWhile p = c :: cs) :
    (A ++ W).dropWhile p = c :: (cs ++ W) := by
  rw [List.dropWhile_append, h]
  simp

theorem headLoop_pass (lv : Nat) (nm : Line) (P Y : List Line)
    (hP : ∀ m ∈ P, isHeadingLine lv m = false) :
    headLoop lv nm (P ++ Y) =
      (P ++ (headLoop lv nm Y).1, (headLoop lv nm Y).2) := by
  induction P with
  | nil => simp
  | cons a as ih =>
    rw [List.cons_append, headLoop_skip lv nm a (as ++ Y) (hP a (by simp)),
      ih (fun m hm => hP m (by simp [hm]))]
    simp

theorem headFix_cons (lv : Nat) (nm l : Line) (T : List Line)
    (h : isHeadingLine lv l = false)
    (hT : headLoop lv nm T = (T, false)) :
    headLoop lv nm (l :: T) = (l :: T, false) := by
  rw [headLoop_skip lv nm l T h, hT]

theorem headFix_append (lv : Nat) (nm : Line) (P T : List Line)
    (hP : ∀ m ∈ P, isHeadingLine lv m = false)
    (hT : headLoop lv nm T = (T, false)) :
    headLoop lv nm (P ++ T) = (P ++ T, false) := by
  rw [headLoop_pass lv nm P T hP, hT]

theorem headFix_head (lv : Nat) (nm h : Line) (T : List Line) (aj : Line)
    (r2 : List Line)
    (hh : isHeadingLine lv h = true)
    (hcl : h.drop (headPre lv).length = headClean lv h)
    (hA : T.dropWhile isBlankT = aj :: r2)
    (hw : wikiShape (jsTrim aj) = true)
    (heq : jsTrim aj = headBl lv nm h)
    (hT : headLoop lv nm T = (T, false)) :
    headLoop lv nm (h :: T) = (h :: T, false) := by
  rw [headLoop_same lv nm h T aj r2 hh hA hw heq, hT]
  have h1 : headNewLine lv h = h := by
    unfold headNewLine
    rw [← hcl]
    exact heading_decomp lv h hh
  have h2 : (h.drop (headPre lv).length != headClean lv h) = false := by
    simp [hcl]
  rw [h1, h2]
  simp

theorem headFix_tail (lv : Nat) (nm l : Line) (T : List Line)
    (hT : headLoop lv nm (l :: T) = (l :: T, false)) :
    headLoop lv nm T = (T, false) := by
  by_cases hh : isHeadingLine lv l = true
  · rcases hA : T.dropWhile isBlankT with _ | ⟨aj, r2⟩
    · rw [headLoop_push lv nm l T hh hA] at hT
      exact absurd (congrArg Prod.snd hT) (by simp)
    · by_cases hw : wikiShape (jsTrim aj) = false
      · rw [headLoop_ins lv nm l T aj r2 hh hA hw] at hT
        exact absurd (congrArg Prod.snd hT) (by simp)
      · have hw2 : wikiShape (jsTrim aj) = true := by
          cases hv : wikiShape (jsTrim aj)
          · exact absurd hv hw
          · rfl
        by_cases hne : jsTrim aj = headBl lv nm l
        · rw [headLoop_same lv nm l T aj r2 hh hA hw2 hne] at hT
          have h1 := congrArg Prod.fst hT
          have h2 := congrArg Prod.snd hT
          simp only [Prod.fst, Prod.snd] at h1 h2
          have h1b : (headLoop lv nm T).1 = T := (List.cons_eq_cons.mp h1).2
          have h2b : (headLoop lv nm T).2 = false := by
            rcases Bool.or_eq_false_iff.mp h2 with ⟨_, hb⟩
            exact hb
          exact Prod.ext h1b h2b
        · rw [headLoop_over lv nm l T aj r2 hh hA hw2 hne] at hT
          exact absurd (congrArg Prod.snd hT) (by simp)
  · have hh2 : isHeadingLine lv l = false := by
      cases hv : isHeadingLine lv l
      · rfl
      · exact absurd hv hh
    rw [headLoop_skip lv nm l T hh2] at hT
    have h1 := congrArg Prod.fst hT
    have h2 := congrArg Prod.snd hT
    simp only [Prod.fst, Prod.snd] at h1 h2
    exact Prod.ext (List.cons_eq_cons.mp h1).2 h2

theorem headFix_cond (lv : Nat) (nm l : Line) (T : List Line)
    (hT : headLoop lv nm (l :: T) = (l :: T, false))
    (hh : isHeadingLine lv l = true) :
    l.drop (headPre lv).length = headClean lv l ∧
    ∃ aj r2, T.dropWhile isBlankT = aj :: r2 ∧ wikiShape (jsTrim aj) = true ∧
      jsTrim aj = headBl lv nm l := by
  rcases hA : T.dropWhile isBlankT with _ | ⟨aj, r2⟩
  · rw [headLoop_push lv nm l T hh hA] at hT
    exact absurd (congrArg Prod.snd hT) (by simp)
  · by_cases hw : wikiShape (jsTrim aj) = false
    · rw [headLoop_ins lv nm l T aj r2 hh hA hw] at hT
      exact absurd (congrArg Prod.snd hT) (by simp)
    · have hw2 : wikiShape (jsTrim aj) = true := by
        cases hv : wikiShape (jsTrim aj)
        · exact absurd hv hw
        · rfl
      by_cases hne : jsTrim aj = headBl lv nm l
      · rw [headLoop_same lv nm l T aj r2 hh hA hw2 hne] at hT
        have h2 := congrArg Prod.snd hT
        simp only [Prod.snd] at h2
        rcases Bool.or_eq_false_iff.mp h2 with ⟨ha, _⟩
        refine ⟨?_, aj, r2, rfl, hw2, hne⟩
        simpa [bne_eq_false_iff_eq] using ha
      · rw [headLoop_over lv nm l T aj r2 hh hA hw2 hne] at hT
        exact absurd (congrArg Prod.snd hT) (by simp)

theorem headFix_drop (lv : Nat) (nm : Line) :
    ∀ (Z : List Line) (n : Nat), headLoop lv nm Z = (Z, false) →
      headLoop lv nm (Z.drop n) = (Z.drop n, false) := by
  intro Z
  induction Z with
  | nil => intro n _; simpa using headLoop_nil lv nm
  | cons l T ih =>
    intro n h
    cases n with
    | zero => simpa using h
    | succ k =>
      rw [List.drop_succ_cons]
      exact ih k (headFix_tail lv nm l T h)

theorem jsTrim_headBl (lv : Nat) (nm l : Line) :
    jsTrim (headBl lv nm l) = headBl lv nm l :=
  jsTrim_mkBacklink nm (headClean lv l)

theorem headBl_not_blankT (lv : Nat) (nm l : Line) :
    isBlankT (headBl lv nm l) = false := by
  unfold isBlankT
  rw [jsTrim_headBl]
  simp [headBl, mkBacklink]

theorem trim_not_blankT (l : Line) (c : Char) (y : List Char)
    (h : jsTrim l = c :: y) : isBlankT l = false := by
  simp [isBlankT, h]

theorem headBl_not_heading (lv : Nat) (nm l : Line) :
    isHeadingLine lv (headBl lv nm l) = false :=
  isHeadingLine_mkBacklink lv nm (headClean lv l)

theorem aj_not_heading (lv : Nat) (nm l aj : Line) (h1 : 1 ≤ lv)
    (heq : jsTrim aj = headBl lv nm l) : isHeadingLine lv aj = false := by
  apply not_heading_of_trim_head lv aj '[' h1
  · rw [heq]
    simp [headBl, mkBacklink]
  · decide

theorem headLoop_out_fix (lv : Nat) (nm : Line) (h1 : 1 ≤ lv)
    (hn : nm.all dotChar = true) :
    ∀ (X : List Line), (∀ m ∈ X, m.all dotChar = true) →
      headLoop lv nm (headLoop lv nm X).1 = ((headLoop lv nm X).1, false) := by
  intro X
  induction X using headLoop.induct lv nm with
  | case1 => intro _; simp [headLoop_nil]
  | case2 l0 tail hh hA ih =>
    intro hX
    rw [headLoop_push lv nm l0 tail hh hA]
    have htb : ∀ m ∈ tail, isBlankT m = true := List.dropWhile_eq_nil_iff.mp hA
    have hPnh : ∀ m ∈ tail ++ [headBl lv nm l0], isHeadingLine lv m = false := by
      intro m hm
      rcases List.mem_append.mp hm with hm | hm
      · exact blank_not_heading lv m h1 (htb m hm)
      · rw [List.mem_singleton.mp hm]
        exact headBl_not_heading lv nm l0
    have hO : headLoop lv nm (tail ++ [headBl lv nm l0]) =
        (tail ++ [headBl lv nm l0], false) := by
      have := headFix_append lv nm (tail ++ [headBl lv nm l0]) [] hPnh
        (headLoop_nil lv nm)
      simpa using this
    rw [hO]
    apply headFix_head lv nm _ _ (headBl lv nm l0) []
      (isHeadingLine_headNewLine lv l0) (headNewLine_drop_clean lv nm l0)
    · exact dropWhile_all_cons isBlankT tail _ [] htb (headBl_not_blankT lv nm l0)
    · rw [jsTrim_headBl]
      exact wikiShape_headBl lv nm l0 hn (hX l0 (by simp))
    · rw [jsTrim_headBl, headBl_headNewLine]
    · exact hO
  | case3 l0 tail hh aj rest2 hA hw ih =>
    intro hX
    rw [headLoop_ins lv nm l0 tail aj rest2 hh hA hw]
    have htb : ∀ m ∈ tail.takeWhile isBlankT, isBlankT m = true :=
      fun m hm => List.mem_takeWhile_imp hm
    have hsub : ∀ m ∈ aj :: rest2, m ∈ tail := by
      intro m hm
      exact (List.dropWhile_suffix isBlankT).sublist.subset (hA ▸ hm)
    have hdots : ∀ m ∈ tail.takeWhile isBlankT ++ headBl lv nm l0 :: aj :: rest2,
        m.all dotChar = true := by
      intro m hm
      rcases List.mem_append.mp hm with hm | hm
      · exact hX m (List.mem_cons_of_mem _
          ((List.takeWhile_prefix isBlankT).sublist.subset hm))
      · rcases List.mem_cons.mp hm with hm | hm
        · rw [hm]
          exact dot_headBl lv nm l0 hn (hX l0 (by simp))
        · exact hX m (List.mem_cons_of_mem _ (hsub m hm))
    have ihc := ih hdots
    have hAeq : tail.takeWhile isBlankT ++ headBl lv nm l0 :: aj :: rest2 =
        (tail.takeWhile isBlankT ++ [headBl lv nm l0]) ++ aj :: rest2 := by
      simp [List.append_assoc]
    have hPnh : ∀ m ∈ tail.takeWhile isBlankT ++ [headBl lv nm l0],
        isHeadingLine lv m = false := by
      intro m hm
      rcases List.mem_append.mp hm with hm | hm
      · exact blank_not_heading lv m h1 (htb m hm)
      · rw [List.mem_singleton.mp hm]
        exact headBl_not_heading lv nm l0
    have hfst : (headLoop lv nm
        (tail.takeWhile isBlankT ++ headBl lv nm l0 :: aj :: rest2)).1 =
        tail.takeWhile isBlankT ++ headBl lv nm l0 ::
          (headLoop lv nm (aj :: rest2)).1 := by
      rw [hAeq, headLoop_pass lv nm _ _ hPnh]
      simp [List.append_assoc]
    rw [hfst] at ihc ⊢
    apply headFix_head lv nm _ _ (headBl lv nm l0)
      (headLoop lv nm (aj :: rest2)).1
      (isHeadingLine_headNewLine lv l0) (headNewLine_drop_clean lv nm l0)
    · exact dropWhile_all_cons isBlankT _ _ _ htb (headBl_not_blankT lv nm l0)
    · rw [jsTrim_headBl]
      exact wikiShape_headBl lv nm l0 hn (hX l0 (by simp))
    · rw [jsTrim_headBl, headBl_headNewLine]
    · exact ihc
  | case4 l0 tail hh aj rest2 hA hw hne ih =>
    intro hX
    have hw2 : wikiShape (jsTrim aj) = true := by
      cases hwv : wikiShape (jsTrim aj)
      · exact absurd hwv hw
      · rfl
    rw [headLoop_over lv nm l0 tail aj rest2 hh hA hw2 hne]
    have htb : ∀ m ∈ tail.takeWhile isBlankT, isBlankT m = true :=
      fun m hm => List.mem_takeWhile_imp hm
    have hsub : ∀ m ∈ aj :: rest2, m ∈ tail := by
      intro m hm
      exact (List.dropWhile_suffix isBlankT).sublist.subset (hA ▸ hm)
    have hdots : ∀ m ∈ tail.takeWhile isBlankT ++ headBl lv nm l0 :: rest2,
        m.all dotChar = true := by
      intro m hm
      rcases List.mem_append.mp hm with hm | hm
      · exact hX m (List.mem_cons_of_mem _
          ((List.takeWhile_prefix isBlankT).sublist.subset hm))
      · rcases List.mem_cons.mp hm with hm | hm
        · rw [hm]
          exact dot_headBl lv nm l0 hn (hX l0 (by simp))
        · exact hX m (List.mem_cons_of_mem _ (hsub m (by simp [hm])))
    have ihc := ih hdots
    have hAeq : tail.takeWhile isBlankT ++ headBl lv nm l0 :: rest2 =
        (tail.takeWhile isBlankT ++ [headBl lv nm l0]) ++ rest2 := by
      simp [List.append_assoc]
    have hPnh : ∀ m ∈ tail.takeWhile isBlankT ++ [headBl lv nm l0],
        isHeadingLine lv m = false := by
      intro m hm
      rcases List.mem_append.mp hm with hm | hm
      · exact blank_not_heading lv m h1 (htb m hm)
      · rw [List.mem_singleton.mp hm]
        exact headBl_not_heading lv nm l0
    have hfst : (headLoop lv nm
        (tail.takeWhile isBlankT ++ headBl lv nm l0 :: rest2)).1 =
        tail.takeWhile isBlankT ++ headBl lv nm l0 ::
          (headLoop lv nm rest2).1 := by
      rw [hAeq, headLoop_pass lv nm _ _ hPnh]
      simp [List.append_assoc]
    rw [hfst] at ihc ⊢
    apply headFix_head lv nm _ _ (headBl lv nm l0) (headLoop lv nm rest2).1
      (isHeadingLine_headNewLine lv l0) (headNewLine_drop_clean lv nm l0)
    · exact dropWhile_all_cons isBlankT _ _ _ htb (headBl_not_blankT lv nm l0)
    · rw [jsTrim_headBl]
      exact wikiShape_headBl lv nm l0 hn (hX l0 (by simp))
    · rw [jsTrim_headBl, headBl_headNewLine]
    · exact ihc
  | case5 l0 tail hh aj rest2 hA hw hne ih =>
    intro hX
    have hw2 : wikiShape (jsTrim aj) = true := by
      cases hwv : wikiShape (jsTrim aj)
      · exact absurd hwv hw
      · rfl
    have heq : jsTrim aj = headBl lv nm l0 := by
      by_contra hx
      exact hne hx
    rw [headLoop_same lv nm l0 tail aj rest2 hh hA hw2 heq]
    have ihc := ih (fun m hm => hX m (List.mem_cons_of_mem _ hm))
    have htb : ∀ m ∈ tail.takeWhile isBlankT, isBlankT m = true :=
      fun m hm => List.mem_takeWhile_imp hm
    have hPnh : ∀ m ∈ tail.takeWhile isBlankT ++ [aj],
        isHeadingLine lv m = false := by
      intro m hm
      rcases List.mem_append.mp hm with hm | hm
      · exact blank_not_heading lv m h1 (htb m hm)
      · rw [List.mem_singleton.mp hm]
        exact aj_not_heading lv nm l0 aj h1 heq
    have hteq : tail = (tail.takeWhile isBlankT ++ [aj]) ++ rest2 := by
      conv_lhs => rw [← List.takeWhile_append_dropWhile (p := isBlankT) (l := tail)]
      rw [hA]
      simp [List.append_assoc]
    have hfst : (headLoop lv nm tail).1 =
        tail.takeWhile isBlankT ++ aj :: (headLoop lv nm rest2).1 := by
      conv_lhs => rw [hteq]
      rw [headLoop_pass lv nm _ _ hPnh]
      simp [List.append_assoc]
    rw [hfst] at ihc ⊢
    apply headFix_head lv nm _ _ aj (headLoop lv nm rest2).1
      (isHeadingLine_headNewLine lv l0) (headNewLine_drop_clean lv nm l0)
    · apply dropWhile_all_cons isBlankT _ _ _ htb
      exact trim_not_blankT aj _ _ (heq.trans (by simp [headBl, mkBacklink]) :
        jsTrim aj = '[' :: ('[' :: (nm ++ '#' :: (headClean lv l0 ++ [']', ']']))))
    · exact hw2
    · rw [heq, headBl_headNewLine]
    · exact ihc
  | case6 l0 tail hh ih =>
    intro hX
    have hh2 : isHeadingLine lv l0 = false := by
      cases hv : isHeadingLine lv l0
      · rfl
      · exact absurd hv hh
    rw [headLoop_skip lv nm l0 tail hh2]
    exact headFix_cons lv nm l0 _ hh2 (ih (fun m hm => hX m (by simp [hm])))

theorem tidyAux_pass (P W : List Line) (hP : ∀ m ∈ P, isList m = false) :
    tidyAux [] (P ++ W) = (P ++ (tidyAux [] W).1, (tidyAux [] W).2) := by
  induction P with
  | nil => simp
  | cons a as ih =>
    rw [List.cons_append]
    have ha : isList a = false := hP a (by simp)
    simp only [tidyAux, ha, Bool.false_eq_true, if_false, List.isEmpty_nil, if_true]
    rw [ih (fun m hm => hP m (by simp [hm]))]
    simp

theorem trim_headBl_shape (lv : Nat) (nm l aj : Line)
    (heq : jsTrim aj = headBl lv nm l) :
    jsTrim aj = '[' :: ('[' :: (nm ++ '#' :: (headClean lv l ++ [']', ']']))) := by
  rw [heq]
  simp [headBl, mkBacklink]

theorem aj_not_list (lv : Nat) (nm l aj : Line)
    (heq : jsTrim aj = headBl lv nm l) : isList aj = false :=
  trim_head_not_list aj _ (trim_headBl_shape lv nm l aj heq)

theorem aj_not_blankT (lv : Nat) (nm l aj : Line)
    (heq : jsTrim aj = headBl lv nm l) : isBlankT aj = false :=
  trim_not_blankT aj _ _ (trim_headBl_shape lv nm l aj heq)

theorem tidy_keeps_headFix (lv : Nat) (nm : Line) (hlv : 1 ≤ lv) :
    ∀ (acc Z : List Line), (∀ m ∈ acc, isList m = true) →
      headLoop lv nm Z = (Z, false) →
      headLoop lv nm (tidyAux acc Z).1 = ((tidyAux acc Z).1, false) := by
  intro acc Z
  induction acc, Z using tidyAux.induct with
  | case1 acc =>
    intro hacc _
    simp only [tidyAux]
    have hnh : ∀ m ∈ acc.reverse.filter (fun l => !isEmptyItem l),
        isHeadingLine lv m = false := fun m hm =>
      list_not_heading lv m hlv (hacc m (List.mem_reverse.mp (List.mem_filter.mp hm).1))
    have := headFix_append lv nm _ [] hnh (headLoop_nil lv nm)
    simpa using this
  | case2 acc x xs hx ih =>
    intro hacc hZ
    simp only [tidyAux, hx, if_true]
    apply ih
    · intro m hm
      rcases List.mem_cons.mp hm with hm | hm
      · rw [hm]; exact hx
      · exact hacc m hm
    · exact headFix_tail lv nm x xs hZ
  | case3 acc x xs hx hacc ih =>
    intro _ hZ
    simp only [tidyAux, hx, Bool.false_eq_true, if_false, hacc, if_true]
    have htl := headFix_tail lv nm x xs hZ
    have ihc := ih (by simp) htl
    by_cases hh : isHeadingLine lv x = true
    · obtain ⟨hcl, aj, r2, hA, hw, heq⟩ := headFix_cond lv nm x xs hZ hh
      have hBz : ∀ m ∈ xs.takeWhile isBlankT, isBlankT m = true :=
        fun m hm => List.mem_takeWhile_imp hm
      have hxs : xs = (xs.takeWhile isBlankT ++ [aj]) ++ r2 := by
        conv_lhs => rw [← List.takeWhile_append_dropWhile (p := isBlankT) (l := xs)]
        rw [hA]
        simp [List.append_assoc]
      have hPnl : ∀ m ∈ xs.takeWhile isBlankT ++ [aj], isList m = false := by
        intro m hm
        rcases List.mem_append.mp hm with hm | hm
        · exact blankT_not_list m (hBz m hm)
        · rw [List.mem_singleton.mp hm]
          exact aj_not_list lv nm x aj heq
      have hfst : (tidyAux [] xs).1 =
          xs.takeWhile isBlankT ++ aj :: (tidyAux [] r2).1 := by
        conv_lhs => rw [hxs]
        rw [tidyAux_pass _ _ hPnl]
        simp [List.append_assoc]
      rw [hfst] at ihc ⊢
      apply headFix_head lv nm x _ aj (tidyAux [] r2).1 hh hcl
      · exact dropWhile_all_cons isBlankT _ _ _ hBz (aj_not_blankT lv nm x aj heq)
      · exact hw
      · exact heq
      · exact ihc
    · have hh2 : isHeadingLine lv x = false := by
        cases hv : isHeadingLine lv x
        · rfl
        · exact absurd hv hh
      exact headFix_cons lv nm x _ hh2 ihc
  | case4 acc x xs hx hacc hsp ih =>
    intro hacc2 hZ
    simp only [tidyAux, hx, Bool.false_eq_true, if_false, hacc, hsp, if_true]
    have htl := headFix_tail lv nm x xs hZ
    have ihc := ih (by simp) htl
    have hfix : headLoop lv nm (x :: (tidyAux [] xs).1) =
        (x :: (tidyAux [] xs).1, false) := by
      by_cases hh : isHeadingLine lv x = true
      · obtain ⟨hcl, aj, r2, hA, hw, heq⟩ := headFix_cond lv nm x xs hZ hh
        have hBz : ∀ m ∈ xs.takeWhile isBlankT, isBlankT m = true :=
          fun m hm => List.mem_takeWhile_imp hm
        have hxs : xs = (xs.takeWhile isBlankT ++ [aj]) ++ r2 := by
          conv_lhs => rw [← List.takeWhile_append_dropWhile (p := isBlankT) (l := xs)]
          rw [hA]
          simp [List.append_assoc]
        have hPnl : ∀ m ∈ xs.takeWhile isBlankT ++ [aj], isList m = false := by
          intro m hm
          rcases List.mem_append.mp hm with hm | hm
          · exact blankT_not_list m (hBz m hm)
          · rw [List.mem_singleton.mp hm]
            exact aj_not_list lv nm x aj heq
        have hfst : (tidyAux [] xs).1 =
            xs.takeWhile isBlankT ++ aj :: (tidyAux [] r2).1 := by
          conv_lhs => rw [hxs]
          rw [tidyAux_pass _ _ hPnl]
          simp [List.append_assoc]
        rw [hfst] at ihc ⊢
        apply headFix_head lv nm x _ aj (tidyAux [] r2).1 hh hcl
        · exact dropWhile_all_cons isBlankT _ _ _ hBz (aj_not_blankT lv nm x aj heq)
        · exact hw
        · exact heq
        · exact ihc
      · have hh2 : isHeadingLine lv x = false := by
          cases hv : isHeadingLine lv x
          · rfl
          · exact absurd hv hh
        exact headFix_cons lv nm x _ hh2 ihc
    have hnh : ∀ m ∈ (acc.reverse.filter (fun l => !isEmptyItem l)) ++ [spaceLine],
        isHeadingLine lv m = false := by
      intro m hm
      rcases List.mem_append.mp hm with hm | hm
      · exact list_not_heading lv m hlv
          (hacc2 m (List.mem_reverse.mp (List.mem_filter.mp hm).1))
      · rw [List.mem_singleton.mp hm]
        exact blank_not_heading lv spaceLine hlv (by decide)
    have := headFix_append lv nm
      ((acc.reverse.filter (fun l => !isEmptyItem l)) ++ [spaceLine])
      (x :: (tidyAux [] xs).1) hnh hfix
    rw [List.append_assoc] at this
    simpa using this
  | case5 acc x xs hx hacc hsp ih =>
    intro hacc2 hZ
    simp only [tidyAux, hx, Bool.false_eq_true, if_false, hacc, hsp]
    have htl := headFix_tail lv nm x xs hZ
    have ihc := ih (by simp) htl
    have hh2 : isHeadingLine lv x = false := by
      have hor : isBlankLine x = true ∨ isHtmlCmt x = true := by
        by_contra hc
        push_neg at hc
        obtain ⟨hb, hm⟩ := hc
        have hb2 : isBlankLine x = false := by
          cases hv : isBlankLine x
          · rfl
          · exact absurd hv hb
        have hm2 : isHtmlCmt x = false := by
          cases hv : isHtmlCmt x
          · rfl
          · exact absurd hv hm
        rw [hb2, hm2] at hsp
        simp at hsp
      rcases hor with hb | hm
      · apply blank_not_heading lv x hlv
        unfold isBlankLine at hb
        simp [isBlankT, (jsTrim_eq_nil_iff x).mpr (List.all_eq_true.mp hb)]
      · exact cmt_not_heading lv x hlv hm
    have hfix := headFix_cons lv nm x _ hh2 ihc
    have hnh : ∀ m ∈ acc.reverse.filter (fun l => !isEmptyItem l),
        isHeadingLine lv m = false := fun m hm =>
      list_not_heading lv m hlv
        (hacc2 m (List.mem_reverse.mp (List.mem_filter.mp hm).1))
    have := headFix_append lv nm (acc.reverse.filter (fun l => !isEmptyItem l))
      (x :: (tidyAux [] xs).1) hnh hfix
    simpa using this

theorem headFix_tidy_append (lv : Nat) (nm : Line) (hlv : 1 ≤ lv) :
    ∀ (A Z : List Line),
      headLoop lv nm (A ++ Z) = (A ++ Z, false) →
      headLoop lv nm (A ++ (tidyAux [] Z).1) =
        (A ++ (tidyAux [] Z).1, false) := by
  intro A
  induction A with
  | nil =>
    intro Z h
    simp only [List.nil_append] at h ⊢
    exact tidy_keeps_headFix lv nm hlv [] Z (by simp) h
  | cons a A' ih =>
    intro Z h
    rw [List.cons_append] at h ⊢
    have htl : headLoop lv nm (A' ++ Z) = (A' ++ Z, false) :=
      headFix_tail lv nm a _ h
    have ih2 := ih Z htl
    by_cases hh : isHeadingLine lv a = true
    · obtain ⟨hcl, aj, r2, hA, hw, heq⟩ := headFix_cond lv nm a (A' ++ Z) h hh
      rcases hA' : A'.dropWhile isBlankT with _ | ⟨c, cs⟩
      · have hAblank : ∀ m ∈ A', isBlankT m = true :=
          List.dropWhile_eq_nil_iff.mp hA'
        have hZdrop : Z.dropWhile isBlankT = aj :: r2 := by
          rw [List.dropWhile_append, hA'] at hA
          simpa using hA
        have hBz : ∀ m ∈ Z.takeWhile isBlankT, isBlankT m = true :=
          fun m hm => List.mem_takeWhile_imp hm
        have hZeq : Z = (Z.takeWhile isBlankT ++ [aj]) ++ r2 := by
          conv_lhs => rw [← List.takeWhile_append_dropWhile (p := isBlankT) (l := Z)]
          rw [hZdrop]
          simp [List.append_assoc]
        have hPnl : ∀ m ∈ Z.takeWhile isBlankT ++ [aj], isList m = false := by
          intro m hm
          rcases List.mem_append.mp hm with hm | hm
          · exact blankT_not_list m (hBz m hm)
          · rw [List.mem_singleton.mp hm]
            exact aj_not_list lv nm a aj heq
        have hfst : (tidyAux [] Z).1 =
            Z.takeWhile isBlankT ++ aj :: (tidyAux [] r2).1 := by
          conv_lhs => rw [hZeq]
          rw [tidyAux_pass _ _ hPnl]
          simp [List.append_assoc]
        have hdrop : (A' ++ (tidyAux [] Z).1).dropWhile isBlankT =
            aj :: (tidyAux [] r2).1 := by
          rw [hfst, ← List.append_assoc]
          apply dropWhile_all_cons isBlankT _ _ _ ?_ (aj_not_blankT lv nm a aj heq)
          intro m hm
          rcases List.mem_append.mp hm with hm | hm
          · exact hAblank m hm
          · exact hBz m hm
        exact headFix_head lv nm a _ aj (tidyAux [] r2).1 hh hcl hdrop hw heq ih2
      · have hcr : c = aj ∧ cs ++ Z = r2 := by
          rw [List.dropWhile_append, hA'] at hA
          simp only [List.isEmpty_cons, Bool.false_eq_true, if_false] at hA
          rw [List.cons_append] at hA
          exact ⟨(List.cons_eq_cons.mp hA).1, (List.cons_eq_cons.mp hA).2⟩
        have hdrop : (A' ++ (tidyAux [] Z).1).dropWhile isBlankT =
            c :: (cs ++ (tidyAux [] Z).1) :=
          dropWhile_append_cons isBlankT A' _ c cs hA'
        rw [hcr.1] at hdrop
        exact headFix_head lv nm a _ aj _ hh hcl hdrop hw heq ih2
    · have hh2 : isHeadingLine lv a = false := by
        cases hv : isHeadingLine lv a
        · rfl
        · exact absurd hv hh
      exact headFix_cons lv nm a _ hh2 ih2


theorem chain'_sepR_of_all_list (l : List Line)
    (h : ∀ b ∈ l, isList b = true) : List.Chain' sepR l := by
  induction l with
  | nil => simp
  | cons a l ih =>
    rw [List.chain'_cons']
    constructor
    · intro y hy _ hyl
      rw [h y (List.mem_cons_of_mem _ (List.mem_of_mem_head? hy))] at hyl
      cases hyl
    · exact ih (fun b hb => h b (List.mem_cons_of_mem _ hb))

theorem tidy_out_no_empty : ∀ (acc Z : List Line), ∀ m ∈ (tidyAux acc Z).1,
    isEmptyItem m = false := by
  intro acc Z
  induction acc, Z using tidyAux.induct with
  | case1 acc =>
    intro m hm
    simp only [tidyAux] at hm
    have := (List.mem_filter.mp hm).2
    simpa using this
  | case2 acc x xs hx ih =>
    intro m hm
    simp only [tidyAux, hx, if_true] at hm
    exact ih m hm
  | case3 acc x xs hx hacc ih =>
    intro m hm
    simp only [tidyAux, hx, Bool.false_eq_true, if_false, hacc, if_true] at hm
    rcases List.mem_cons.mp hm with hm | hm
    · rw [hm]
      exact not_list_not_empty x (by simpa using hx)
    · exact ih m hm
  | case4 acc x xs hx hacc hsp ih =>
    intro m hm
    simp only [tidyAux, hx, Bool.false_eq_true, if_false, hacc, hsp, if_true] at hm
    rcases List.mem_append.mp hm with hm | hm
    · have := (List.mem_filter.mp hm).2
      simpa using this
    · rcases List.mem_cons.mp hm with hm | hm
      · rw [hm]; decide
      · rcases List.mem_cons.mp hm with hm | hm
        · rw [hm]
          exact not_list_not_empty x (by simpa using hx)
        · exact ih m hm
  | case5 acc x xs hx hacc hsp ih =>
    intro m hm
    simp only [tidyAux, hx, Bool.false_eq_true, if_false, hacc, hsp] at hm
    rcases List.mem_append.mp hm with hm | hm
    · have := (List.mem_filter.mp hm).2
      simpa using this
    · rcases List.mem_cons.mp hm with hm | hm
      · rw [hm]
        exact not_list_not_empty x (by simpa using hx)
      · exact ih m hm

theorem tidy_out_chain : ∀ (acc Z : List Line),
    (∀ m ∈ acc, isList m = true) → List.Chain' sepR (tidyAux acc Z).1 := by
  intro acc Z
  induction acc, Z using tidyAux.induct with
  | case1 acc =>
    intro hacc
    simp only [tidyAux]
    apply chain'_sepR_of_all_list
    intro b hb
    exact hacc b (List.mem_reverse.mp (List.mem_filter.mp hb).1)
  | case2 acc x xs hx ih =>
    intro hacc
    simp only [tidyAux, hx, if_true]
    apply ih
    intro m hm
    rcases List.mem_cons.mp hm with hm | hm
    · rw [hm]; exact hx
    · exact hacc m hm
  | case3 acc x xs hx hacc ih =>
    intro hacc2
    simp only [tidyAux, hx, Bool.false_eq_true, if_false, hacc, if_true]
    rw [List.chain'_cons']
    constructor
    · intro y _ hxl _
      exact absurd hxl hx
    · exact ih (by simp)
  | case4 acc x xs hx hacc hsp ih =>
    intro hacc2
    simp only [tidyAux, hx, Bool.false_eq_true, if_false, hacc, hsp, if_true]
    rw [List.chain'_append]
    refine ⟨?_, ?_, ?_⟩
    · apply chain'_sepR_of_all_list
      intro b hb
      exact hacc2 b (List.mem_reverse.mp (List.mem_filter.mp hb).1)
    · rw [List.chain'_cons']
      refine ⟨?_, ?_⟩
      · intro y _ hsl _
        have : isList spaceLine = false := by decide
        rw [this] at hsl
        cases hsl
      · rw [List.chain'_cons']
        refine ⟨?_, ih (by simp)⟩
        intro y _ hxl _
        exact absurd hxl hx
    · intro a _ b hb
      have hbs : b = spaceLine := by
        have := hb
        simp at this
        exact this.symm
      intro _ _
      rw [hbs]
      left
      decide
  | case5 acc x xs hx hacc hsp ih =>
    intro hacc2
    simp only [tidyAux, hx, Bool.false_eq_true, if_false, hacc, hsp]
    rw [List.chain'_append]
    refine ⟨?_, ?_, ?_⟩
    · apply chain'_sepR_of_all_list
      intro b hb
      exact hacc2 b (List.mem_reverse.mp (List.mem_filter.mp hb).1)
    · rw [List.chain'_cons']
      refine ⟨?_, ih (by simp)⟩
      intro y _ hxl _
      exact absurd hxl hx
    · intro a _ b hb
      have hbx : b = x := by
        have := hb
        simp at this
        exact this.symm
      intro _ _
      rw [hbx]
      by_contra hc
      push_neg at hc
      obtain ⟨hb1, hm1⟩ := hc
      have hb2 : isBlankLine x = false := by
        cases hv : isBlankLine x
        · rfl
        · exact absurd hv hb1
      have hm2 : isHtmlCmt x = false := by
        cases hv : isHtmlCmt x
        · rfl
        · exact absurd hv hm1
      rw [hb2, hm2] at hsp
      simp at hsp

theorem tidy_stable : ∀ (acc Z : List Line),
    (∀ m ∈ acc, isList m = true) →
    (∀ m ∈ acc, isEmptyItem m = false) →
    (∀ m ∈ Z, isEmptyItem m = false) →
    List.Chain' sepR (acc.reverse ++ Z) →
    tidyAux acc Z = (acc.reverse ++ Z, false) := by
  intro acc Z
  induction acc, Z using tidyAux.induct with
  | case1 acc =>
    intro _ hne _ _
    simp only [tidyAux]
    rw [List.filter_eq_self.mpr, List.any_eq_false.mpr]
    · simp
    · intro m hm
      simp [hne m hm]
    · intro m hm
      simp [hne m (List.mem_reverse.mp hm)]
  | case2 acc x xs hx ih =>
    intro hlist hne hZ hch
    simp only [tidyAux, hx, if_true]
    have hch2 : List.Chain' sepR ((x :: acc).reverse ++ xs) := by
      rw [List.reverse_cons, List.append_assoc]
      simpa using hch
    rw [ih ?_ ?_ (fun m hm => hZ m (by simp [hm])) hch2]
    · rw [List.reverse_cons, List.append_assoc]
      simp
    · intro m hm
      rcases List.mem_cons.mp hm with hm | hm
      · rw [hm]; exact hx
      · exact hlist m hm
    · intro m hm
      rcases List.mem_cons.mp hm with hm | hm
      · rw [hm]; exact hZ x (by simp)
      · exact hne m hm
  | case3 acc x xs hx hacc ih =>
    intro hlist hne hZ hch
    have hae : acc = [] := by simpa [List.isEmpty_iff] using hacc
    subst hae
    simp only [tidyAux, hx, Bool.false_eq_true, if_false, hacc, if_true]
    simp only [List.reverse_nil, List.nil_append] at hch ⊢
    rw [ih (by simp) (by simp) (fun m hm => hZ m (by simp [hm]))
      (by simpa using hch.tail)]
    simp
  | case4 acc x xs hx hacc hsp ih =>
    intro hlist hne hZ hch
    exfalso
    have hane : acc ≠ [] := by
      intro h
      rw [h] at hacc
      simp at hacc
    rcases haccs : acc with _ | ⟨a0, as⟩
    · exact hane haccs
    · rw [haccs] at hch hlist
      obtain ⟨_, _, hjun⟩ := List.chain'_append.mp hch
      have hlast : ((a0 :: as).reverse).getLast? = some a0 := by
        rw [List.getLast?_reverse]
        rfl
      have hsep := hjun a0 (by rw [hlast]; rfl) x (by rfl)
      have hx2 : isList x = false := by simpa using hx
      rcases hsep (hlist a0 (by simp)) hx2 with hb | hm
      · rw [hb] at hsp
        simp at hsp
      · rw [hm] at hsp
        simp at hsp
  | case5 acc x xs hx hacc hsp ih =>
    intro hlist hne hZ hch
    simp only [tidyAux, hx, Bool.false_eq_true, if_false, hacc, hsp]
    obtain ⟨hc1, hc2, hjun⟩ := List.chain'_append.mp hch
    rw [List.filter_eq_self.mpr, List.any_eq_false.mpr]
    · rw [ih (by simp) (by simp) (fun m hm => hZ m (by simp [hm]))
        (by simpa using hc2.tail)]
      simp
    · intro m hm
      simp [hne m hm]
    · intro m hm
      simp [hne m (List.mem_reverse.mp hm)]

theorem tidy_out_stable (Z : List Line) (n : Nat) :
    tidyAux [] (((tidyAux [] Z).1).drop n) =
      ((((tidyAux [] Z).1).drop n), false) := by
  have h := tidy_stable [] (((tidyAux [] Z).1).drop n) (by simp) (by simp)
    (fun m hm => tidy_out_no_empty [] Z m ((List.drop_suffix _ _).sublist.subset hm))
    (by
      simp only [List.reverse_nil, List.nil_append]
      exact (tidy_out_chain [] Z (by simp)).suffix (List.drop_suffix _ _))
  simpa using h

theorem findIdx?_append_left {α : Type} (p : α → Bool) (A B : List α) (j : Nat)
    (h : A.findIdx? p = some j) : (A ++ B).findIdx? p = some j := by
  induction A generalizing j with
  | nil => simp [List.findIdx?] at h
  | cons a t ih =>
    rw [List.findIdx?_cons] at h
    rw [List.cons_append, List.findIdx?_cons]
    by_cases hp : p a
    · rw [if_pos hp] at h ⊢
      exact h
    · rw [if_neg hp] at h ⊢
      rw [List.findIdx?_succ] at h ⊢
      rcases ht : t.findIdx? p with _ | i
      · rw [ht] at h
        simp at h
      · rw [ht] at h
        simp at h
        rw [ih i ht]
        simp [h]

theorem findIdx?_take_of_lt {α : Type} (p : α → Bool) (l : List α) (j n : Nat)
    (h : l.findIdx? p = some j) (hlt : j < n) :
    (l.take n).findIdx? p = some j := by
  induction l generalizing j n with
  | nil => simp [List.findIdx?] at h
  | cons a t ih =>
    rw [List.findIdx?_cons] at h
    cases n with
    | zero => omega
    | succ k =>
      rw [List.take_succ_cons, List.findIdx?_cons]
      by_cases hp : p a
      · rw [if_pos hp] at h ⊢
        exact h
      · rw [if_neg hp] at h ⊢
        rw [List.findIdx?_succ] at h ⊢
        rcases ht : t.findIdx? p with _ | i
        · rw [ht] at h
          simp at h
        · rw [ht] at h
          simp at h
          rw [ih i k ht (by omega)]
          simp [h]

theorem findYamlEnd_cons_delim (X' : List Line) :
    findYamlEnd (ymlDelim :: X') =
      (match X'.findIdx? (fun l => l == ymlDelim) with
       | some j => j + 2
       | none => 0) := by
  simp only [findYamlEnd, if_pos rfl]
  unfold indexOfFrom
  simp only [List.drop_succ_cons, List.drop_zero]
  rcases X'.findIdx? (fun l => l == ymlDelim) with _ | j <;> simp

theorem findYamlEnd_cons_ne (l0 : Line) (X' : List Line) (h : l0 ≠ ymlDelim) :
    findYamlEnd (l0 :: X') = 0 := by
  simp [findYamlEnd, h]

theorem findYamlEnd_take_stable (X : List Line) (s : Nat)
    (h : findYamlEnd X = s) (hpos : 0 < s) (Y : List Line) :
    findYamlEnd (X.take s ++ Y) = s := by
  rcases X with _ | ⟨l0, X'⟩
  · simp [findYamlEnd] at h
    omega
  · by_cases h0 : l0 = ymlDelim
    · subst h0
      rw [findYamlEnd_cons_delim] at h
      rcases hfi : X'.findIdx? (fun l => l == ymlDelim) with _ | j
      · rw [hfi] at h
        simp at h
        omega
      · rw [hfi] at h
        simp at h
        subst h
        have hX : (ymlDelim :: X').take (j + 2) ++ Y =
            ymlDelim :: (X'.take (j + 1) ++ Y) := by
          rw [show j + 2 = (j + 1) + 1 from rfl, List.take_succ_cons]
          simp
        rw [hX, findYamlEnd_cons_delim]
        rw [findIdx?_append_left _ _ Y j
          (findIdx?_take_of_lt _ _ j (j + 1) hfi (by omega))]
    · rw [findYamlEnd_cons_ne l0 X' h0] at h
      omega

theorem headLoop_keeps (lv : Nat) (nm m : Line)
    (hm1 : isHeadingLine lv m = false) (hm2 : wikiShape (jsTrim m) = false) :
    ∀ X : List Line, m ∈ X → m ∈ (headLoop lv nm X).1 := by
  intro X
  induction X using headLoop.induct lv nm with
  | case1 => intro h; simp at h
  | case2 l0 tail hh hA ih =>
    intro hmem
    rw [headLoop_push lv nm l0 tail hh hA]
    have hmt : m ∈ tail := by
      rcases List.mem_cons.mp hmem with he | ht
      · rw [he] at hm1
        rw [hm1] at hh
        cases hh
      · exact ht
    exact List.mem_cons_of_mem _ (ih (List.mem_append_left _ hmt))
  | case3 l0 tail hh aj rest2 hA hw ih =>
    intro hmem
    rw [headLoop_ins lv nm l0 tail aj rest2 hh hA hw]
    have hmt : m ∈ tail := by
      rcases List.mem_cons.mp hmem with he | ht
      · rw [he] at hm1
        rw [hm1] at hh
        cases hh
      · exact ht
    apply List.mem_cons_of_mem
    apply ih
    have := List.takeWhile_append_dropWhile (p := isBlankT) (l := tail)
    rw [hA] at this
    rw [← this] at hmt
    rcases List.mem_append.mp hmt with h | h
    · exact List.mem_append_left _ h
    · exact List.mem_append_right _ (List.mem_cons_of_mem _ h)
  | case4 l0 tail hh aj rest2 hA hw hne ih =>
    intro hmem
    have hw2 : wikiShape (jsTrim aj) = true := by
      cases hwv : wikiShape (jsTrim aj)
      · exact absurd hwv hw
      · rfl
    rw [headLoop_over lv nm l0 tail aj rest2 hh hA hw2 hne]
    have hmt : m ∈ tail := by
      rcases List.mem_cons.mp hmem with he | ht
      · rw [he] at hm1
        rw [hm1] at hh
        cases hh
      · exact ht
    apply List.mem_cons_of_mem
    apply ih
    have := List.takeWhile_append_dropWhile (p := isBlankT) (l := tail)
    rw [hA] at this
    rw [← this] at hmt
    rcases List.mem_append.mp hmt with h | h
    · exact List.mem_append_left _ h
    · rcases List.mem_cons.mp h with he | ht
      · rw [he] at hm2
        rw [hm2] at hw2
        cases hw2
      · exact List.mem_append_right _ (List.mem_cons_of_mem _ ht)
  | case5 l0 tail hh aj rest2 hA hw hne ih =>
    intro hmem
    have hw2 : wikiShape (jsTrim aj) = true := by
      cases hwv : wikiShape (jsTrim aj)
      · exact absurd hwv hw
      · rfl
    have heq : jsTrim aj = headBl lv nm l0 := by
      by_contra hx
      exact hne hx
    rw [headLoop_same lv nm l0 tail aj rest2 hh hA hw2 heq]
    have hmt : m ∈ tail := by
      rcases List.mem_cons.mp hmem with he | ht
      · rw [he] at hm1
        rw [hm1] at hh
        cases hh
      · exact ht
    exact List.mem_cons_of_mem _ (ih hmt)
  | case6 l0 tail hh ih =>
    intro hmem
    have hh2 : isHeadingLine lv l0 = false := by
      cases hv : isHeadingLine lv l0
      · rfl
      · exact absurd hv hh
    rw [headLoop_skip lv nm l0 tail hh2]
    rcases List.mem_cons.mp hmem with he | ht
    · rw [he]
      simp
    · exact List.mem_cons_of_mem _ (ih ht)

theorem tidy_keeps (m : Line) (hml : isList m = false) :
    ∀ (acc Z : List Line), m ∈ Z → m ∈ (tidyAux acc Z).1 := by
  intro acc Z
  induction acc, Z using tidyAux.induct with
  | case1 acc => intro h; simp at h
  | case2 acc x xs hx ih =>
    intro hmem
    simp only [tidyAux, hx, if_true]
    apply ih
    rcases List.mem_cons.mp hmem with he | ht
    · rw [he] at hml
      rw [hml] at hx
      cases hx
    · exact ht
  | case3 acc x xs hx hacc ih =>
    intro hmem
    simp only [tidyAux, hx, Bool.false_eq_true, if_false, hacc, if_true]
    rcases List.mem_cons.mp hmem with he | ht
    · rw [he]
      simp
    · exact List.mem_cons_of_mem _ (ih ht)
  | case4 acc x xs hx hacc hsp ih =>
    intro hmem
    simp only [tidyAux, hx, Bool.false_eq_true, if_false, hacc, hsp, if_true]
    rcases List.mem_cons.mp hmem with he | ht
    · rw [he]
      simp
    · exact List.mem_append_right _
        (List.mem_cons_of_mem _ (List.mem_cons_of_mem _ (ih ht)))
  | case5 acc x xs hx hacc hsp ih =>
    intro hmem
    simp only [tidyAux, hx, Bool.false_eq_true, if_false, hacc, hsp]
    rcases List.mem_cons.mp hmem with he | ht
    · rw [he]
      simp
    · exact List.mem_append_right _ (List.mem_cons_of_mem _ (ih ht))

theorem deckMarker_not_heading (lv : Nat) (hlv : 1 ≤ lv) :
    isHeadingLine lv deckMarker = false := by
  apply not_heading_of_trim_head lv deckMarker 'T' hlv
  · decide
  · decide

theorem deck_stable (tpl nm : Line) (T : List Line)
    (h : T.any (fun l => containsSub deckMarker l) = true) :
    ensureTargetDeck tpl nm T = (T, false) := by
  unfold ensureTargetDeck
  rw [h]
  simp

theorem any_marker_of_mem (T : List Line) (h : deckMarker ∈ T) :
    T.any (fun l => containsSub deckMarker l) = true :=
  List.any_eq_true.mpr ⟨deckMarker, h, by decide⟩

theorem deck_out_marker (tpl nm : Line) (lines : List Line)
    (h5 : lines.any (fun l => containsSub deckMarker l) = false) :
    deckMarker ∈ (ensureTargetDeck tpl nm lines).1 := by
  unfold ensureTargetDeck
  rw [h5]
  simp only [Bool.false_eq_true, if_false]
  by_cases hc : deckInsertIdx lines > 0 &&
      (lines.get? (deckInsertIdx lines - 1) == some ymlDelim)
  · rw [if_pos hc]
    simp [insertAt]
  · rw [if_neg hc]
    simp [insertAt]

theorem head_stage_stable (lv : Nat) (nm : Line) (T : List Line)
    (h : headLoop lv nm (T.drop (findYamlEnd T)) =
      (T.drop (findYamlEnd T), false)) :
    rewriteHeadingsAndCollectLists lv nm T = (T, false) := by
  simp only [rewriteHeadingsAndCollectLists]
  rw [h]
  simp [List.take_append_drop]

theorem tidy_stage_stable (T : List Line)
    (h : tidyAux [] (T.drop (findYamlEnd T)) =
      (T.drop (findYamlEnd T), false)) :
    tidyLists T = (T, false) := by
  simp only [tidyLists]
  rw [h]
  simp [List.take_append_drop]


theorem mem_expandRepl (b a : List Char) :
    ∀ (s : List Char), ∀ c ∈ expandRepl b a s,
      c ∈ b ∨ c ∈ a ∨ c ∈ filenamePat ∨ c ∈ s := by
  intro s
  induction s using expandRepl.induct b a with
  | case1 => intro c hc; simp [expandRepl] at hc
  | case2 =>
    intro c hc
    right; right; right
    simpa [expandRepl] using hc
  | case3 cs ih =>
    intro c hc
    have hred : expandRepl b a ('$' :: '$' :: cs) = '$' :: expandRepl b a cs := by
      simp [expandRepl]
    rw [hred] at hc
    rcases List.mem_cons.mp hc with he | ht
    · right; right; right
      simp [he]
    · rcases ih c ht with h | h | h | h
      · exact Or.inl h
      · exact Or.inr (Or.inl h)
      · exact Or.inr (Or.inr (Or.inl h))
      · right; right; right
        simp [h]
  | case4 cs h1 ih =>
    intro c hc
    have hred : expandRepl b a ('$' :: '&' :: cs) =
        filenamePat ++ expandRepl b a cs := by
      simp [expandRepl]
    rw [hred] at hc
    rcases List.mem_append.mp hc with hp | ht
    · exact Or.inr (Or.inr (Or.inl hp))
    · rcases ih c ht with h | h | h | h
      · exact Or.inl h
      · exact Or.inr (Or.inl h)
      · exact Or.inr (Or.inr (Or.inl h))
      · right; right; right
        simp [h]
  | case5 cs h1 h2 ih =>
    intro c hc
    have hred : expandRepl b a ('$' :: Char.ofNat 96 :: cs) =
        b ++ expandRepl b a cs := by
      simp [expandRepl]
    rw [hred] at hc
    rcases List.mem_append.mp hc with hp | ht
    · exact Or.inl hp
    · rcases ih c ht with h | h | h | h
      · exact Or.inl h
      · exact Or.inr (Or.inl h)
      · exact Or.inr (Or.inr (Or.inl h))
      · right; right; right
        simp [h]
  | case6 cs h1 h2 h3 ih =>
    intro c hc
    have hred : expandRepl b a ('$' :: Char.ofNat 39 :: cs) =
        a ++ expandRepl b a cs := by
      simp [expandRepl]
    rw [hred] at hc
    rcases List.mem_append.mp hc with hp | ht
    · exact Or.inr (Or.inl hp)
    · rcases ih c ht with h | h | h | h
      · exact Or.inl h
      · exact Or.inr (Or.inl h)
      · exact Or.inr (Or.inr (Or.inl h))
      · right; right; right
        simp [h]
  | case7 c0 cs h1 h2 h3 h4 ih =>
    intro c hc
    have hred : expandRepl b a ('$' :: c0 :: cs) =
        '$' :: expandRepl b a (c0 :: cs) := by
      simp [expandRepl, h1, h2, h3, h4]
    rw [hred] at hc
    rcases List.mem_cons.mp hc with he | ht
    · right; right; right
      simp [he]
    · rcases ih c ht with h | h | h | h
      · exact Or.inl h
      · exact Or.inr (Or.inl h)
      · exact Or.inr (Or.inr (Or.inl h))
      · right; right; right
        exact List.mem_cons_of_mem _ h
  | case8 c0 cs h1 ih =>
    intro c hc
    have hred : expandRepl b a (c0 :: cs) = c0 :: expandRepl b a cs := by
      conv_lhs => rw [expandRepl.eq_def]
      simp [h1]
    rw [hred] at hc
    rcases List.mem_cons.mp hc with he | ht
    · right; right; right
      simp [he]
    · rcases ih c ht with h | h | h | h
      · exact Or.inl h
      · exact Or.inr (Or.inl h)
      · exact Or.inr (Or.inr (Or.inl h))
      · right; right; right
        simp [h]

theorem mem_replaceFilenameF (bn orig : List Char) :
    ∀ (f pos : Nat) (s : List Char), ∀ c ∈ replaceFilenameF bn orig f pos s,
      c ∈ s ∨ c ∈ bn ∨ c ∈ orig ∨ c ∈ filenamePat := by
  intro f pos s
  induction f, pos, s using replaceFilenameF.induct bn orig with
  | case1 x s =>
    intro c hc
    left
    simpa [replaceFilenameF] using hc
  | case2 n x =>
    intro c hc
    simp [replaceFilenameF] at hc
  | case3 f pos c0 cs hpre ih =>
    intro c hc
    have hred : replaceFilenameF bn orig (f + 1) pos (c0 :: cs) =
        expandRepl (orig.take pos) (orig.drop (pos + filenamePat.length)) bn ++
          replaceFilenameF bn orig f (pos + filenamePat.length)
            ((c0 :: cs).drop filenamePat.length) := by
      conv_lhs => rw [replaceFilenameF.eq_def]
      simp [hpre]
    rw [hred] at hc
    rcases List.mem_append.mp hc with hp | ht
    · rcases mem_expandRepl _ _ bn c hp with h | h | h | h
      · exact Or.inr (Or.inr (Or.inl ((List.take_prefix _ _).sublist.subset h)))
      · exact Or.inr (Or.inr (Or.inl ((List.drop_suffix _ _).sublist.subset h)))
      · exact Or.inr (Or.inr (Or.inr h))
      · exact Or.inr (Or.inl h)
    · rcases ih c ht with h | h | h | h
      · exact Or.inl ((List.drop_suffix _ _).sublist.subset h)
      · exact Or.inr (Or.inl h)
      · exact Or.inr (Or.inr (Or.inl h))
      · exact Or.inr (Or.inr (Or.inr h))
  | case4 f pos c0 cs hpre ih =>
    intro c hc
    have hred : replaceFilenameF bn orig (f + 1) pos (c0 :: cs) =
        c0 :: replaceFilenameF bn orig f (pos + 1) cs := by
      conv_lhs => rw [replaceFilenameF.eq_def]
      simp [hpre]
    rw [hred] at hc
    rcases List.mem_cons.mp hc with he | ht
    · left
      simp [he]
    · rcases ih c ht with h | h | h | h
      · exact Or.inl (List.mem_cons_of_mem _ h)
      · exact Or.inr (Or.inl h)
      · exact Or.inr (Or.inr (Or.inl h))
      · exact Or.inr (Or.inr (Or.inr h))

theorem dot_renderDeckTemplate (tpl bn : Line) (h3 : bn.all dotChar = true)
    (h4 : tpl.all dotChar = true) :
    (renderDeckTemplate tpl bn).all dotChar = true := by
  apply List.all_eq_true.mpr
  intro c hc
  unfold renderDeckTemplate at hc
  have hfp : filenamePat.all dotChar = true := by decide
  rcases mem_replaceFilenameF bn tpl _ _ _ c hc with h | h | h | h
  · exact List.all_eq_true.mp h4 c h
  · exact List.all_eq_true.mp h3 c h
  · exact List.all_eq_true.mp h4 c h
  · exact List.all_eq_true.mp hfp c h

theorem mem_insertAt (i : Nat) (new L : List Line) (m : Line)
    (h : m ∈ insertAt i new L) : m ∈ new ∨ m ∈ L := by
  unfold insertAt at h
  rcases List.mem_append.mp h with h | h
  · rcases List.mem_append.mp h with h | h
    · exact Or.inr ((List.take_prefix _ _).sublist.subset h)
    · exact Or.inl h
  · exact Or.inr ((List.drop_suffix _ _).sublist.subset h)

theorem deck_out_dot (tpl bn : Line) (lines : List Line)
    (h2 : ∀ l ∈ lines, l.all dotChar = true) (h3 : bn.all dotChar = true)
    (h4 : tpl.all dotChar = true) :
    ∀ m ∈ (ensureTargetDeck tpl bn lines).1, m.all dotChar = true := by
  intro m hm
  unfold ensureTargetDeck at hm
  rcases hg : lines.any (fun l => containsSub deckMarker l) with hgv | hgv
  · rw [hg] at hm
    simp only [Bool.false_eq_true, if_false] at hm
    have hnew : ∀ x ∈ ([deckMarker, renderDeckTemplate tpl bn, []] : List Line),
        x.all dotChar = true := by
      intro x hx
      rcases List.mem_cons.mp hx with he | hx
      · rw [he]; decide
      · rcases List.mem_cons.mp hx with he | hx
        · rw [he]
          exact dot_renderDeckTemplate tpl bn h3 h4
        · rcases List.mem_cons.mp hx with he | hx
          · rw [he]; decide
          · simp at hx
    by_cases hc : deckInsertIdx lines > 0 &&
        (lines.get? (deckInsertIdx lines - 1) == some ymlDelim)
    · rw [if_pos hc] at hm
      simp only at hm
      rcases mem_insertAt _ _ _ m hm with h | h
      · exact hnew m h
      · rcases mem_insertAt _ _ _ m h with h | h
        · rcases List.mem_singleton.mp h with he
          rw [he]
          decide
        · exact h2 m h
    · rw [if_neg hc] at hm
      simp only at hm
      rcases mem_insertAt _ _ _ m hm with h | h
      · exact hnew m h
      · exact h2 m h
  · rw [hg] at hm
    simp only [if_true] at hm
    exact h2 m hm

theorem take_fy_length (X : List Line) :
    (X.take (findYamlEnd X)).length = findYamlEnd X := by
  rw [List.length_take]
  have := findYamlEnd_le X
  omega

theorem headFix_tidy (lv : Nat) (nm : Line) (hlv : 1 ≤ lv) (Z : List Line)
    (h : headLoop lv nm Z = (Z, false)) :
    headLoop lv nm (tidyAux [] Z).1 = ((tidyAux [] Z).1, false) := by
  have := headFix_tidy_append lv nm hlv [] Z (by simpa using h)
  simpa using this

theorem chain_stable (lv : Nat) (nm : Line) (hlv : 1 ≤ lv)
    (hn : nm.all dotChar = true)
    (D : List Line) (hDdot : ∀ m ∈ D, m.all dotChar = true)
    (useHead useTidy : Bool) (E1 H E2 T : List Line)
    (hE1 : E1 = if useHead then (headLoop lv nm (D.drop (findYamlEnd D))).1
        else D.drop (findYamlEnd D))
    (hH : H = D.take (findYamlEnd D) ++ E1)
    (hE2 : E2 = if useTidy then (tidyAux [] (H.drop (findYamlEnd H))).1
        else H.drop (findYamlEnd H))
    (hT : T = H.take (findYamlEnd H) ++ E2) :
    (useHead = true → headLoop lv nm (T.drop (findYamlEnd T)) =
        (T.drop (findYamlEnd T), false)) ∧
    (useTidy = true → tidyAux [] (T.drop (findYamlEnd T)) =
        (T.drop (findYamlEnd T), false)) := by
  have hE1fix : useHead = true → headLoop lv nm E1 = (E1, false) := by
    intro hu
    rw [hE1, if_pos hu]
    apply headLoop_out_fix lv nm hlv hn
    intro m hm
    exact hDdot m ((List.drop_suffix _ _).sublist.subset hm)
  rcases useTidy with _ | _
  · -- tidy disabled: E2 = H.drop _, T = H
    rw [if_neg (by simp)] at hE2
    have hTH : T = H := by
      rw [hT, hE2, List.take_append_drop]
    refine ⟨?_, by intro h; cases h⟩
    intro hu
    have hfix := hE1fix hu
    by_cases hs : findYamlEnd D = 0
    · have hHE : H = E1 := by
        rw [hH, hs]
        simp
      rw [hTH, hHE]
      exact headFix_drop lv nm E1 _ hfix
    · have hfyH : findYamlEnd H = findYamlEnd D := by
        rw [hH]
        exact findYamlEnd_take_stable D _ rfl (Nat.pos_of_ne_zero hs) E1
      rw [hTH, hfyH, hH, List.drop_left' (take_fy_length D)]
      exact hfix
  · -- tidy enabled
    rw [if_pos rfl] at hE2
    by_cases hs : findYamlEnd D = 0
    · have hHE : H = E1 := by
        rw [hH, hs]
        simp
      by_cases ht0 : findYamlEnd H = 0
      · have hTE : T = (tidyAux [] H).1 := by
          rw [hT, hE2, ht0]
          simp
        constructor
        · intro hu
          apply headFix_drop
          rw [hTE]
          exact headFix_tidy lv nm hlv H (hHE ▸ hE1fix hu)
        · intro _
          rw [hTE]
          exact tidy_out_stable H _
      · have hfyT : findYamlEnd T = findYamlEnd H := by
          rw [hT]
          exact findYamlEnd_take_stable H _ rfl (Nat.pos_of_ne_zero ht0) E2
        have hTd : T.drop (findYamlEnd T) = E2 := by
          rw [hfyT, hT]
          exact List.drop_left' (take_fy_length H)
        rw [hTd]
        constructor
        · intro hu
          rw [hE2]
          apply headFix_tidy lv nm hlv
          apply headFix_drop
          rw [hHE]
          exact hE1fix hu
        · intro _
          rw [hE2]
          have := tidy_out_stable (H.drop (findYamlEnd H)) 0
          simpa using this
    · have hpos := Nat.pos_of_ne_zero hs
      have hfyH : findYamlEnd H = findYamlEnd D := by
        rw [hH]
        exact findYamlEnd_take_stable D _ rfl hpos E1
      have hHd : H.drop (findYamlEnd H) = E1 := by
        rw [hfyH, hH]
        exact List.drop_left' (take_fy_length D)
      have hHt : H.take (findYamlEnd H) = D.take (findYamlEnd D) := by
        rw [hfyH, hH]
        exact List.take_left' (take_fy_length D)
      have hfyT : findYamlEnd T = findYamlEnd D := by
        rw [hT, hHt]
        exact findYamlEnd_take_stable D _ rfl hpos E2
      have hTd : T.drop (findYamlEnd T) = E2 := by
        rw [hfyT, hT, hHt]
        exact List.drop_left' (take_fy_length D)
      rw [hTd]
      constructor
      · intro hu
        rw [hE2, hHd]
        exact headFix_tidy lv nm hlv E1 (hE1fix hu)
      · intro _
        rw [hE2, hHd]
        have := tidy_out_stable E1 0
        simpa using this

theorem chain_keeps (lv : Nat) (nm : Line) (m : Line)
    (hm1 : isHeadingLine lv m = false) (hm2 : wikiShape (jsTrim m) = false)
    (hm3 : isList m = false)
    (D : List Line) (hmD : m ∈ D)
    (useHead useTidy : Bool) (E1 H E2 T : List Line)
    (hE1 : E1 = if useHead then (headLoop lv nm (D.drop (findYamlEnd D))).1
        else D.drop (findYamlEnd D))
    (hH : H = D.take (findYamlEnd D) ++ E1)
    (hE2 : E2 = if useTidy then (tidyAux [] (H.drop (findYamlEnd H))).1
        else H.drop (findYamlEnd H))
    (hT : T = H.take (findYamlEnd H) ++ E2) : m ∈ T := by
  have hmH : m ∈ H := by
    rw [hH]
    rcases List.mem_append.mp ((List.take_append_drop (findYamlEnd D) D).symm ▸ hmD)
      with h | h
    · exact List.mem_append_left _ h
    · apply List.mem_append_right
      rw [hE1]
      rcases useHead with _ | _
      · rw [if_neg (by simp)]
        exact h
      · rw [if_pos rfl]
        exact headLoop_keeps lv nm m hm1 hm2 _ h
  rw [hT]
  rcases List.mem_append.mp ((List.take_append_drop (findYamlEnd H) H).symm ▸ hmH)
    with h | h
  · exact List.mem_append_left _ h
  · apply List.mem_append_right
    rw [hE2]
    rcases useTidy with _ | _
    · rw [if_neg (by simp)]
      exact h
    · rw [if_pos rfl]
      exact tidy_keeps m hm3 [] _ h

/-- C1 (amended): pipeline idempotence holds under the side conditions the
spec leaves implicit: a positive heading level, no line-terminator
characters inside any line, basename, or deck template (lines come from a
`split("\n")`, so this is the real invariant), and — when deck insertion
is enabled — no pre-existing line merely containing "TARGET DECK" as a
substring (such a line satisfies the guard yet can be destroyed by the
heading overwrite step).  Then running the enabled pipeline a second time
returns the first run's lines unchanged and reports no change. -/
theorem pipeline_idem (cfg : Config) (nm : Line) (lines : List Line)
    (h1 : 1 ≤ cfg.headingLevel)
    (h2 : ∀ l ∈ lines, l.all dotChar = true)
    (h3 : nm.all dotChar = true)
    (h4 : cfg.targetDeckTemplate.all dotChar = true)
    (h5 : cfg.enableTargetDeck = true →
      lines.any (fun l => containsSub deckMarker l) = false) :
    runPipeline cfg nm (runPipeline cfg nm lines).1 =
      ((runPipeline cfg nm lines).1, false) := by
  set D := (if cfg.enableTargetDeck then
    ensureTargetDeck cfg.targetDeckTemplate nm lines else (lines, false)).1 with hD
  set E1 := if cfg.enableHeadingOps then
      (headLoop cfg.headingLevel nm (D.drop (findYamlEnd D))).1
    else D.drop (findYamlEnd D) with hE1
  set H := D.take (findYamlEnd D) ++ E1 with hH
  set E2 := if cfg.enableListTidy then (tidyAux [] (H.drop (findYamlEnd H))).1
    else H.drop (findYamlEnd H) with hE2
  set T := H.take (findYamlEnd H) ++ E2 with hT
  have hDdot : ∀ m ∈ D, m.all dotChar = true := by
    rw [hD]
    by_cases hdk : cfg.enableTargetDeck = true
    · rw [if_pos hdk]
      exact deck_out_dot _ nm lines h2 h3 h4
    · rw [if_neg hdk]
      exact h2
  obtain ⟨hKH, hKT⟩ := chain_stable cfg.headingLevel nm h1 h3 D hDdot
    cfg.enableHeadingOps cfg.enableListTidy E1 H E2 T hE1 hH hE2 hT
  have hmark : cfg.enableTargetDeck = true → deckMarker ∈ T := by
    intro hdk
    apply chain_keeps cfg.headingLevel nm deckMarker
      (deckMarker_not_heading cfg.headingLevel h1) (by decide) (by decide)
      D ?_ cfg.enableHeadingOps cfg.enableListTidy E1 H E2 T hE1 hH hE2 hT
    rw [hD, if_pos hdk]
    exact deck_out_marker cfg.targetDeckTemplate nm lines (h5 hdk)
  have hout : (runPipeline cfg nm lines).1 = T := by
    rw [hT, hE2, hH, hE1, hD]
    simp only [runPipeline]
    by_cases hho : cfg.enableHeadingOps = true <;>
      by_cases hlt : cfg.enableListTidy = true <;>
        simp only [hho, hlt, if_true, if_false, Bool.false_eq_true,
          rewriteHeadingsAndCollectLists, tidyLists, List.take_append_drop]
  have hA : (if cfg.enableTargetDeck then
      ensureTargetDeck cfg.targetDeckTemplate nm T else (T, false)) = (T, false) := by
    by_cases hdk : cfg.enableTargetDeck = true
    · rw [if_pos hdk]
      exact deck_stable _ nm T (any_marker_of_mem T (hmark hdk))
    · rw [if_neg hdk]
  have hB : (if cfg.enableHeadingOps then
      rewriteHeadingsAndCollectLists cfg.headingLevel nm T else (T, false)) =
      (T, false) := by
    by_cases hho : cfg.enableHeadingOps = true
    · rw [if_pos hho]
      exact head_stage_stable cfg.headingLevel nm T (hKH hho)
    · rw [if_neg hho]
  have hC : (if cfg.enableListTidy then tidyLists T else (T, false)) =
      (T, false) := by
    by_cases hlt : cfg.enableListTidy = true
    · rw [if_pos hlt]
      exact tidy_stage_stable T (hKT hlt)
    · rw [if_neg hlt]
  rw [hout]
  simp only [runPipeline]
  rw [hA]
  have hfst : ((T, false) : List Line × Bool).1 = T := rfl
  rw [hfst, hB, hfst, hC]
  simp

/-- C1 counterexample: the full pipeline is NOT idempotent for every document.
With only heading ops enabled at level 4, the single line "#### a\rb"
(an embedded carriage return) gains one more backlink line on every run:
the appended backlink "[[N#a\rb]]" contains a line terminator, so on the
next run it fails the wiki-link-shape test (`.` excludes line terminators)
and a fresh backlink is inserted before it. -/
theorem pipeline_not_idempotent :
    runPipeline ⟨4, [], false, true, false, ⟨RunScope.all, [], []⟩⟩ "N".data
      (runPipeline ⟨4, [], false, true, false, ⟨RunScope.all, [], []⟩⟩ "N".data
        ["#### a\rb".data]).1 ≠
    ((runPipeline ⟨4, [], false, true, false, ⟨RunScope.all, [], []⟩⟩ "N".data
        ["#### a\rb".data]).1, false) := by
  have e1 : runPipeline ⟨4, [], false, true, false, ⟨RunScope.all, [], []⟩⟩ "N".data
      ["#### a\rb".data] = (["#### a\rb".data, "[[N#a\rb]]".data], true) := by
    simp only [runPipeline, Bool.false_eq_true, if_false, if_true]
    have h0 : findYamlEnd ["#### a\rb".data] = 0 := by decide
    simp only [rewriteHeadingsAndCollectLists, h0, List.drop_zero, List.take_zero,
      List.nil_append]
    rw [headLoop_push 4 _ _ _ (by decide) (by decide)]
    simp only [List.nil_append]
    rw [headLoop_skip 4 _ _ _ (by decide)]
    rw [headLoop_nil]
    decide
  rw [e1]
  have e2 : runPipeline ⟨4, [], false, true, false, ⟨RunScope.all, [], []⟩⟩ "N".data
      ["#### a\rb".data, "[[N#a\rb]]".data] =
      (["#### a\rb".data, "[[N#a\rb]]".data, "[[N#a\rb]]".data], true) := by
    simp only [runPipeline, Bool.false_eq_true, if_false, if_true]
    have h0 : findYamlEnd ["#### a\rb".data, "[[N#a\rb]]".data] = 0 := by decide
    simp only [rewriteHeadingsAndCollectLists, h0, List.drop_zero, List.take_zero,
      List.nil_append]
    rw [headLoop_ins 4 _ _ _ "[[N#a\rb]]".data [] (by decide) (by decide) (by decide)]
    have ht : (["[[N#a\rb]]".data] : List Line).takeWhile isBlankT = [] := by decide
    rw [ht]
    simp only [List.nil_append]
    rw [headLoop_skip 4 _ _ _ (by decide)]
    rw [headLoop_skip 4 _ _ _ (by decide)]
    rw [headLoop_nil]
    decide
  rw [e2]
  simp only [ne_eq, Prod.mk.injEq, not_and]
  intro h
  exact absurd h (by decide)

/-- C1 witness: with all three components enabled, template
"[[filename]]", basename "N", and document ["#### q"], the hypotheses hold
and the second run changes nothing. -/
theorem pipeline_idem_witness :
    (1 ≤ (⟨4, "[[filename]]".data, true, true, true,
        ⟨RunScope.all, [], []⟩⟩ : Config).headingLevel) ∧
    (∀ l ∈ [("#### q".data : Line)], l.all dotChar = true) ∧
    ("N".data.all dotChar = true) ∧
    ((⟨4, "[[filename]]".data, true, true, true,
        ⟨RunScope.all, [], []⟩⟩ : Config).targetDeckTemplate.all dotChar = true) ∧
    ((⟨4, "[[filename]]".data, true, true, true,
        ⟨RunScope.all, [], []⟩⟩ : Config).enableTargetDeck = true →
      ([("#### q".data : Line)].any (fun l => containsSub deckMarker l)) = false) ∧
    runPipeline ⟨4, "[[filename]]".data, true, true, true, ⟨RunScope.all, [], []⟩⟩
        "N".data
        (runPipeline ⟨4, "[[filename]]".data, true, true, true,
          ⟨RunScope.all, [], []⟩⟩ "N".data ["#### q".data]).1 =
      ((runPipeline ⟨4, "[[filename]]".data, true, true, true,
          ⟨RunScope.all, [], []⟩⟩ "N".data ["#### q".data]).1, false) :=
  ⟨by decide, by decide, by decide, by decide, fun _ => by decide,
   pipeline_idem ⟨4, "[[filename]]".data, true, true, true, ⟨RunScope.all, [], []⟩⟩
     "N".data ["#### q".data] (by decide) (by decide) (by decide) (by decide)
     (fun _ => by decide)⟩

end AnkiHelper
